import Mathlib

/-!
Verification of the economics-journal metadata pipeline
(`src/utils_minimal.py`, `src/pipeline.py`).

Python strings are modelled as `List Char` (ASCII fragment: `Char.toLower`
and `Char.toUpper` model `str.lower()`/`str.upper()`, which agree on the
ASCII inputs the pipeline manipulates).  Python `None`-able strings are
`Option (List Char)`.  Stateful code (retry loops, pagination, file
append) is modelled by explicit recursion over oracles describing the
outside world, instrumented so that control-flow facts (number of HTTP
attempts, sleeps performed, loop exit cause) are observable.
-/

namespace Pipeline

/-- Python whitespace, as used by `str.strip()` and `str.split()`
(`' '`, `\t`, `\n`, `\r`, `\x0b`, `\f`). -/
def isPySpace (c : Char) : Bool :=
  c = ' ' || c = '\t' || c = '\n' || c = '\x0d' || c = '\x0b' || c = '\x0c'

/-- `str.lstrip()`. -/
def lstrip (l : List Char) : List Char := l.dropWhile isPySpace

/-- `str.rstrip()`. -/
def rstrip (l : List Char) : List Char := (l.reverse.dropWhile isPySpace).reverse

/-- `str.strip()`. -/
def pyStrip (l : List Char) : List Char := rstrip (lstrip l)

/-- `s.lower()` (ASCII). -/
def pyLower (l : List Char) : List Char := l.map Char.toLower

/-- Literal prefix test: does `l` start with `pat`? -/
def leadMatch : List Char → List Char → Bool
  | [], _ => true
  | _ :: _, [] => false
  | p :: ps, c :: cs => p = c && leadMatch ps cs

/-- Case-insensitive literal prefix test (both sides lowered). -/
def ciLead (pat l : List Char) : Bool := leadMatch (pyLower pat) (pyLower l)

/-- Does `l` contain `pat` as a contiguous substring? -/
def containsSub (pat : List Char) : List Char → Bool
  | [] => leadMatch pat []
  | c :: cs => leadMatch pat (c :: cs) || containsSub pat cs

/-- Tail of one match attempt of `https?://(dx\.)?doi\.org/`: after the
scheme (which consumed `n` characters), the optional `dx\.` and the
literal `doi\.org/`. -/
def matchDoiTail (n : Nat) (r : List Char) : Option Nat :=
  if ciLead ("dx.".toList) r then
    (if ciLead ("doi.org/".toList) (r.drop 3) then some (n + 3 + 8) else none)
  else (if ciLead ("doi.org/".toList) r then some (n + 8) else none)

/-- One match attempt of the regex `https?://(dx\.)?doi\.org/` (flags
`re.I`) at the head of `l`; returns the number of characters consumed.
The regex is a case-insensitive literal with two optional pieces, and
backtracking can never rescue a failed greedy choice (after `https`
comes `:` not `s`; a string on which `dx\.` matches cannot also start
with `doi.org/`), so a non-backtracking matcher is exact. -/
def matchDoiUrlLen (l : List Char) : Option Nat :=
  if ciLead ("https://".toList) l then matchDoiTail 8 (l.drop 8)
  else if ciLead ("http://".toList) l then matchDoiTail 7 (l.drop 7)
  else none

theorem matchDoiTail_pos {n : Nat} {r : List Char} {k : Nat}
    (h : matchDoiTail n r = some k) : n + 8 ≤ k := by
  unfold matchDoiTail at h
  split at h
  · split at h
    · injection h with h'; omega
    · exact absurd h (by simp)
  · split at h
    · injection h with h'; omega
    · exact absurd h (by simp)

theorem matchDoiUrlLen_pos {l : List Char} {k : Nat}
    (h : matchDoiUrlLen l = some k) : 0 < k := by
  unfold matchDoiUrlLen at h
  split at h
  · have := matchDoiTail_pos h; omega
  · split at h
    · have := matchDoiTail_pos h; omega
    · exact absurd h (by simp)

/-- `re.sub(r"https?://(dx\.)?doi\.org/", "", s, flags=re.I)`: scan left
to right, removing every non-overlapping match.  `fuel` only forces
structural recursion; with `fuel ≥ length` (as called) it never runs
out, since every removed match consumes at least one character. -/
def subDoiUrlGo : Nat → List Char → List Char
  | _, [] => []
  | 0, l => l
  | fuel + 1, c :: cs =>
    match matchDoiUrlLen (c :: cs) with
    | some k => subDoiUrlGo fuel ((c :: cs).drop k)
    | none => c :: subDoiUrlGo fuel cs

def subDoiUrl (l : List Char) : List Char := subDoiUrlGo l.length l

/-- `s.replace("doi:", "")` — case-sensitive, left-to-right,
non-overlapping, single pass. -/
def replaceDoiLabel : List Char → List Char
  | 'd' :: 'o' :: 'i' :: ':' :: rest => replaceDoiLabel rest
  | c :: cs => c :: replaceDoiLabel cs
  | [] => []

/-- `utils_minimal.normalize_doi`:

    def normalize_doi(raw):
        if not raw: return None
        s = raw.strip()
        if s.lower().startswith("http"):
            s = re.sub(r"https?://(dx\.)?doi\.org/", "", s, flags=re.I)
        s = s.replace("doi:", "")
        s = s.strip().lower()
        return s or None
-/
def normalize_doi (raw : Option (List Char)) : Option (List Char) :=
  match raw with
  | none => none
  | some r =>
    if r = [] then none
    else
      let s := pyStrip r
      let s := if ciLead ("http".toList) s then subDoiUrl s else s
      let s := replaceDoiLabel s
      let s := pyLower (pyStrip s)
      if s = [] then none else some s

example : normalize_doi (some ("https://doi.org/10.1/X".toList)) = some ("10.1/x".toList) := by decide
example : normalize_doi (some ("  doi:10.1257/AER.1 ".toList)) = some ("10.1257/aer.1".toList) := by decide
example : normalize_doi (some ("DOI:10.1/X".toList)) = some ("doi:10.1/x".toList) := by decide
example : normalize_doi (some ("HTTP://DX.DOI.ORG/10.1/x".toList)) = some ("10.1/x".toList) := by decide
example : normalize_doi (some ("   ".toList)) = none := by decide
example : normalize_doi none = none := by decide

/-! ## JEL code extraction (`utils_minimal.extract_jel_from_text`) -/

/-- Python regex word character `\w` (ASCII fragment): letter, digit or
underscore. -/
def isWordChar (c : Char) : Bool := c.isAlpha || c.isDigit || c = '_'

/-- `\b` holds before the match: previous character (if any) is not a
word character (the first matched character `[A-Z]` always is one). -/
def prevBoundary : Option Char → Bool
  | none => true
  | some p => !isWordChar p

/-- `\b` holds after the match: next character (if any) is not a word
character (the last matched character, a digit, always is one). -/
def nextBoundary : List Char → Bool
  | [] => true
  | n :: _ => !isWordChar n

/-- The scan performed by `re.findall(r"\b([A-Z]\d{1,2})\b", text)`:
positions are tried left to right; at each position the engine checks
`\b`, one uppercase letter, then greedily two digits (backtracking to
one), then `\b`; a successful match resumes the scan after its last
character, a failed one advances a single character.  `prev` is the
character before the current position (`none` at the very start). -/
def jelScan : List Char → Option Char → List (List Char)
  | [], _ => []
  | c :: d1 :: d2 :: rest, prev =>
    if prevBoundary prev && c.isUpper then
      if d1.isDigit && d2.isDigit && nextBoundary rest then
        [c, d1, d2] :: jelScan rest (some d2)
      else if d1.isDigit && !isWordChar d2 then
        [c, d1] :: jelScan (d2 :: rest) (some d1)
      else jelScan (d1 :: d2 :: rest) (some c)
    else jelScan (d1 :: d2 :: rest) (some c)
  | [c, d1], prev =>
    if prevBoundary prev && c.isUpper then
      (if d1.isDigit then [[c, d1]] else jelScan [d1] (some c))
    else jelScan [d1] (some c)
  | [c], prev =>
    if prevBoundary prev && c.isUpper then [] else jelScan [] (some c)

/-- The explicit first-seen deduplication loop of the source:

    uniques = []
    for f in found:
        if f not in uniques: uniques.append(f)
-/
def pyUnique (found : List (List Char)) : List (List Char) :=
  found.foldl (fun acc f => if f ∈ acc then acc else acc ++ [f]) []

/-- `utils_minimal.extract_jel_from_text`:

    if not text: return []
    pattern = re.compile(r"\b([A-Z]\d{1,2})\b")
    found = pattern.findall(text.upper())
    uniques = []
    for f in found:
        if f not in uniques: uniques.append(f)
    return uniques
-/
def extract_jel_from_text (text : List Char) : List (List Char) :=
  if text = [] then []
  else pyUnique (jelScan (text.map Char.toUpper) none)

example :
    extract_jel_from_text ("Classification: L13, D2 and something M99Z".toList) =
      [("L13".toList), ("D2".toList)] := by decide
example : extract_jel_from_text ("no codes here".toList) = [] := by decide
example : extract_jel_from_text ("l13 and l13".toList) = [("L13".toList)] := by decide

/-- Claim-side view of the same pattern: split the uppercased text into
maximal runs of word characters ("whole tokens"). -/
def wordTokens : List Char → List (List Char)
  | [] => []
  | c :: cs =>
    if isWordChar c then
      (c :: cs.takeWhile isWordChar) :: wordTokens (cs.dropWhile isWordChar)
    else wordTokens cs
termination_by l => l.length
decreasing_by
  · simp only [List.length_cons]
    have := (List.dropWhile_sublist (l := cs) isWordChar).length_le
    omega
  · simp

/-- Claim-side view: a token is a code exactly when it is one uppercase
letter immediately followed by one or two digits. -/
def isJelToken : List Char → Bool
  | [c, d] => c.isUpper && d.isDigit
  | [c, d, e] => c.isUpper && d.isDigit && e.isDigit
  | _ => false

/-! ## Abstract reconstruction (`utils_minimal.reconstruct_abstract`) -/

/-- Inner loop of `reconstruct_abstract`: `words[p] = token` for every
position of every token, in iteration order (`List.set` is exactly
Python list assignment for the in-range indices produced here). -/
def fillWords (ii : List (List Char × List Nat)) (ws : List (List Char)) :
    List (List Char) :=
  ii.foldl (fun ws e => e.2.foldl (fun ws p => ws.set p e.1) ws) ws

/-- `max(positions)` folded over all entries, starting from 0:

    max_pos = 0
    for token, positions in inverted_index.items():
        if positions: max_pos = max(max_pos, max(positions))
-/
def maxPos (ii : List (List Char × List Nat)) : Nat :=
  ii.foldl (fun m e => if e.2 ≠ [] then max m (e.2.foldl max 0) else m) 0

/-- `" ".join(ws)`. -/
def joinSpace : List (List Char) → List Char
  | [] => []
  | [w] => w
  | w :: ws => w ++ ' ' :: joinSpace ws

/-- `utils_minimal.reconstruct_abstract`: a `dict` is modelled as an
association list in insertion order (its keys are distinct, which no
step here relies on).  Positions are naturals, so the guarded
`IndexError` branch of the source (reachable only through negative
positions) cannot fire. -/
def reconstruct_abstract (ii : List (List Char × List Nat)) : List Char :=
  if ii = [] then []
  else
    let words := fillWords ii (List.replicate (maxPos ii + 1) [])
    joinSpace (words.filter (· ≠ []))

/-- `str.split()` with no separator: split on runs of whitespace and
drop empty pieces.  `acc` holds the current in-progress word reversed. -/
def pySplitGo (acc : List Char) : List Char → List (List Char)
  | [] => if acc = [] then [] else [acc.reverse]
  | c :: cs =>
    if isPySpace c then
      (if acc = [] then pySplitGo [] cs else acc.reverse :: pySplitGo [] cs)
    else pySplitGo (c :: acc) cs

def pySplit (l : List Char) : List (List Char) := pySplitGo [] l

example :
    reconstruct_abstract [(("Hello".toList), [0]), (("world".toList), [1])] =
      ("Hello world".toList) := by decide
example : pySplit ("  a  bc ".toList) = [("a".toList), ("bc".toList)] := by decide
example : reconstruct_abstract [] = [] := by decide

/-! ## Resilient HTTP client (`utils_minimal.http_get`) -/

/-- Outcome of one `session.get` call: a transport-level failure
(`requests.RequestException` from the call itself) or a response with a
status code.  `resp.raise_for_status()` raises `HTTPError` — a
`RequestException` — exactly for status codes in `[400, 600)`. -/
inductive AttemptOutcome where
  | transportError
  | response (status : Nat)
deriving DecidableEq

def raisesForStatus (s : Nat) : Bool := 400 ≤ s && s < 600

def attemptFails : AttemptOutcome → Bool
  | .transportError => true
  | .response s => raisesForStatus s

/-- The loop of `http_get`, instrumented: returns
(result, number of attempts performed, sleeps performed in seconds).
`left + 1` attempts remain (so `left = 0` means `attempt == retries`);
`attempt` is the 1-based index sent to the oracle; `delay` doubles after
every failed non-final attempt, exactly as `delay *= 2` (the float
arithmetic `1.0 * 2 * ...` is exact, so naturals model it faithfully).

    delay = 1.0
    for attempt in range(1, retries + 1):
        try:
            resp = session.get(...); resp.raise_for_status(); return resp
        except requests.RequestException:
            if attempt == retries: return None
            time.sleep(delay); delay *= 2
    return None
-/
def httpGetGo (oracle : Nat → AttemptOutcome) :
    Nat → Nat → Nat → Option Nat × Nat × List Nat
  | 0, _, _ => (none, 0, [])
  | left + 1, attempt, delay =>
    match oracle attempt with
    | .response s =>
      if raisesForStatus s then
        if left = 0 then (none, 1, [])
        else
          match httpGetGo oracle left (attempt + 1) (delay * 2) with
          | (r, n, sl) => (r, n + 1, delay :: sl)
      else (some s, 1, [])
    | .transportError =>
      if left = 0 then (none, 1, [])
      else
        match httpGetGo oracle left (attempt + 1) (delay * 2) with
        | (r, n, sl) => (r, n + 1, delay :: sl)

/-- `utils_minimal.http_get` over an oracle giving the outcome of each
attempt (1-based). -/
def http_get (oracle : Nat → AttemptOutcome) (retries : Nat) :
    Option Nat × Nat × List Nat :=
  httpGetGo oracle retries 1 1

example :
    http_get (fun i => if i < 3 then .transportError else .response 200) 3 =
      (some 200, 3, [1, 2]) := rfl
example :
    http_get (fun _ => .response 503) 3 = (none, 3, [1, 2]) := rfl
example :
    http_get (fun _ => .response 304) 3 = (some 304, 1, []) := rfl

/-! ## Paginated fetcher (`Pipeline._fetch_year`) -/

/-- What the OpenAlex endpoint does with one page request at a given
cursor: the request exhausts its retries (`http_get` returned `None`),
the body fails to parse (`resp.json()` raised), or a page of results
with an optional `meta.next_cursor`. -/
inductive PageOutcome (α : Type) where
  | fetchFail
  | parseFail
  | page (results : List α) (nextCursor : Option (List Char))

def PageOutcome.isContinuing {α : Type} : PageOutcome α → Bool
  | .page _ (some _) => true
  | _ => false

/-- The `while True` pagination loop of `_fetch_year`, instrumented with
the exit cause (`true` = left through the "no next cursor" break, the
success path; `false` = left through a fetch/parse failure break).
`fuel` bounds the number of pages processed; `none` models the
(unobservable) case where the loop outlives its fuel.

    while True:
        resp = http_get(...cursor...)
        if not resp: break
        try: data = resp.json()
        except Exception: break
        papers.extend(data.get('results', []))
        next_cursor = data.get('meta', {}).get('next_cursor')
        if not next_cursor: break
        cursor = next_cursor
        time.sleep(0.5)
-/
def fetchYearGo {α : Type} (oracle : List Char → PageOutcome α) :
    Nat → List Char → List α → Option (List α × Bool)
  | 0, _, _ => none
  | fuel + 1, cursor, acc =>
    match oracle cursor with
    | .fetchFail => some (acc, false)
    | .parseFail => some (acc, false)
    | .page rs none => some (acc ++ rs, true)
    | .page rs (some c') => fetchYearGo oracle fuel c' (acc ++ rs)

/-- `Pipeline._fetch_year` from the robots guard on: when robots.txt
checking is enabled and disallows the URL the year is abandoned with an
empty result (and without entering the loop); otherwise the cursor loop
runs from the start token `"*"`.  Filter construction and request
parameters are absorbed into the page oracle. -/
def fetch_year {α : Type} (respectRobots robotsAllows : Bool)
    (oracle : List Char → PageOutcome α) (fuel : Nat) :
    Option (List α × Bool) :=
  if respectRobots && !robotsAllows then some ([], false)
  else fetchYearGo oracle fuel ("*".toList) []

/-! ## Resumable enrichment driver (`Pipeline._enrich_file`) -/

/-- `Pipeline._enrich_file` on file contents.  `rawLines` holds the
parse result of each raw line (`none` = `json.loads` raised, the line
is skipped); `existing` is the enriched file if it exists, as its list
of lines; `enr` is `_enrich_paper` composed with serialization.
Returns the enriched file afterwards.

    papers = [parse(line) for line in input if parseable]
    if not papers: return
    already_done = sum(1 for line in f if line.strip())   (if output exists)
    if already_done >= len(papers): return
    append enr(p) for p in papers[already_done:]

A line counts as already done iff `line.strip()` is truthy, i.e. the
line is non-empty after stripping whitespace. -/
def enrich_file {ρ : Type} (enr : ρ → List Char)
    (rawLines : List (Option ρ)) (existing : Option (List (List Char))) :
    Option (List (List Char)) :=
  let papers := rawLines.reduceOption
  if papers.isEmpty then existing
  else
    let alreadyDone := match existing with
      | none => 0
      | some ls => (ls.filter (fun l => pyStrip l ≠ [])).length
    if papers.length ≤ alreadyDone then existing
    else some ((existing.getD []) ++ (papers.drop alreadyDone).map enr)

/-! ## Fallback enrichment chain (`Pipeline._enrich_paper`) -/

/-- Classification result returned by one `_fetch_jel_from_*` helper:
code list, raw evidence, and the `'source'` literal the helper writes. -/
structure JelResult where
  codes : List (List Char)
  raw : List Char
  src : List Char
deriving DecidableEq

/-- The scraping side of the four `_fetch_jel_from_*` helpers, each
abstracted to "given the identifier, the codes extracted from the
fetched text plus that text" — `.error` for a raised exception, `.ok
none` for a failed fetch (`http_get` returned `None` and the helper
returned early), `.ok (some (jels, raw))` for fetched text from which
`extract_jel_from_text` produced `jels`. -/
structure EnrichEnv where
  aea : List Char → Except Unit (Option (List (List Char) × List Char))
  crossref : List Char → Except Unit (Option (List (List Char) × List Char))
  openalex : List Char → Except Unit (Option (List (List Char) × List Char))
  ideas : List Char → Except Unit (Option (List (List Char) × List Char))

/-- Shared tail of every `_fetch_jel_from_*` helper:

    jels = extract_jel_from_text(text)
    if jels: return {'jel_codes': jels, 'jel_raw': ..., 'source': tag}
    return None
-/
def fetchJelWith (tag : List Char)
    (r : Except Unit (Option (List (List Char) × List Char))) :
    Except Unit (Option JelResult) :=
  match r with
  | .error u => .error u
  | .ok none => .ok none
  | .ok (some (jels, raw)) =>
    .ok (if jels = [] then none else some ⟨jels, raw, tag⟩)

/-- Python truthiness of an optional string. -/
def optTruthy : Option (List Char) → Bool
  | none => false
  | some s => s ≠ []

/-- The `if/elif` dispatch in the body of the strategy loop:

    if source == 'aea_page' and doi: result = self._fetch_jel_from_aea(doi)
    elif source == 'crossref' and doi: result = self._fetch_jel_from_crossref(doi)
    elif source == 'openalex' and openalex_id: result = self._fetch_jel_from_openalex(openalex_id)
    elif source == 'ideas_repec' and doi: result = self._fetch_jel_from_ideas(doi)

(the helpers tag their results `'aea_page'`, `'crossref'`, `'openalex'`
and `'ideas'` respectively). -/
def tryStrategy (env : EnrichEnv) (doi oid : Option (List Char))
    (src : List Char) : Except Unit (Option JelResult) :=
  if src = ("aea_page".toList) && optTruthy doi then
    fetchJelWith ("aea_page".toList) (env.aea (doi.getD []))
  else if src = ("crossref".toList) && optTruthy doi then
    fetchJelWith ("crossref".toList) (env.crossref (doi.getD []))
  else if src = ("openalex".toList) && optTruthy oid then
    fetchJelWith ("openalex".toList) (env.openalex (oid.getD []))
  else if src = ("ideas_repec".toList) && optTruthy doi then
    fetchJelWith ("ideas".toList) (env.ideas (doi.getD []))
  else .ok none

/-- The strategy loop: first `.ok (some _)` wins; `.error` (a raised
exception, caught by `except ... continue`) and `.ok none` both move on
to the next configured source. -/
def enrichChain (env : EnrichEnv) (doi oid : Option (List Char)) :
    List (List Char) → Option JelResult
  | [] => none
  | s :: rest =>
    match tryStrategy env doi oid s with
    | .error _ => enrichChain env doi oid rest
    | .ok none => enrichChain env doi oid rest
    | .ok (some r) => some r

/-- A work record as `_enrich_paper` sees and annotates it. -/
structure Paper where
  doiRaw : Option (List Char)
  idsDoi : Option (List Char)
  openalexId : Option (List Char)
  jelCodes : List (List Char)
  jelRaw : List Char
  jelSource : List Char
deriving DecidableEq

/-- `paper.get('doi') or (paper.get('ids') or {}).get('doi')`. -/
def pyOrOpt (a b : Option (List Char)) : Option (List Char) :=
  if optTruthy a then a else b

/-- `Pipeline._enrich_paper`:

    doi = normalize_doi(paper.get('doi') or (paper.get('ids') or {}).get('doi'))
    for source in sources:
        try:
            result = <dispatch>
            if result:
                paper['jel_codes'] = result.get('jel_codes', [])
                paper['jel_raw'] = result.get('jel_raw', '')
                paper['jel_source'] = result.get('source')
                break
        except Exception: continue
    if not result:
        paper['jel_codes'] = []; paper['jel_raw'] = ''; paper['jel_source'] = 'missing'
-/
def enrich_paper (env : EnrichEnv) (sources : List (List Char))
    (p : Paper) : Paper :=
  let doi := normalize_doi (pyOrOpt p.doiRaw p.idsDoi)
  match enrichChain env doi p.openalexId sources with
  | some r => { p with jelCodes := r.codes, jelRaw := r.raw, jelSource := r.src }
  | none => { p with jelCodes := [], jelRaw := [], jelSource := ("missing".toList) }

/-! ## Deduplication (`Pipeline._deduplicate`) -/

/-- One row of the assembled dataframe, restricted to the columns
`_deduplicate` reads (`journal_key`, `year`, `doi`, `title`); `year` is
`none` for a missing publication year (`NaN` in the frame), `doi` is
the already-normalized DOI or `none` (`_paper_to_row` stores
`normalize_doi(...)`). -/
structure Row where
  journal_key : List Char
  year : Option Int
  doi : Option (List Char)
  title : Option (List Char)
deriving DecidableEq

/-- `df['doi'].fillna('').str.lower()`. -/
def doiNorm (r : Row) : List Char := pyLower (r.doi.getD [])

/-- `df['title'].fillna('').str.lower()`. -/
def titleNorm (r : Row) : List Char := pyLower (r.title.getD [])

/-- `drop_duplicates(subset=[key], keep='first')`: keep each row whose
key is not among the keys already `seen`. -/
def keepFirstByGo {α β : Type} [DecidableEq β] (key : α → β)
    (seen : List β) : List α → List α
  | [] => []
  | x :: xs =>
    if key x ∈ seen then keepFirstByGo key seen xs
    else x :: keepFirstByGo key (key x :: seen) xs

def keepFirstBy {α β : Type} [DecidableEq β] (key : α → β) (l : List α) :
    List α :=
  keepFirstByGo key [] l

/-- The per-group body of `_deduplicate`:

    with_doi = group[group['doi_norm'] != ''].drop_duplicates(subset=['doi_norm'], keep='first')
    without_doi = group[group['doi_norm'] == '']
    if not without_doi.empty:
        without_doi = without_doi.drop_duplicates(subset=['title_norm'], keep='first')
    pd.concat([with_doi, without_doi])
-/
def dedupGroup (g : List Row) : List Row :=
  let withDoi := keepFirstBy doiNorm (g.filter (fun r => doiNorm r ≠ []))
  let withoutDoi := g.filter (fun r => doiNorm r = [])
  let withoutDoi := if withoutDoi = [] then withoutDoi
    else keepFirstBy titleNorm withoutDoi
  withDoi ++ withoutDoi

/-- Group membership: row `r` belongs to the `(journal_key, year)` group
`(k, y)` (rows with `NaN` year belong to no group: `groupby` drops
them). -/
def inGroup (k : List Char) (y : Int) (r : Row) : Bool :=
  r.journal_key = k && r.year = some y

/-- Strict lexicographic order on strings (code-point order). -/
def strLt : List Char → List Char → Bool
  | [], [] => false
  | [], _ :: _ => true
  | _ :: _, [] => false
  | a :: as, b :: bs => if a < b then true else if b < a then false else strLt as bs

/-- Lexicographic order on group keys, as `groupby(sort=True)` sorts
string/number tuples. -/
def keyLe (a b : List Char × Int) : Bool :=
  if a.1 = b.1 then a.2 ≤ b.2 else strLt a.1 b.1

/-- The group keys of the frame: every `(journal_key, year)` with a
present year, first occurrences only, in sorted order. -/
def groupKeys (df : List Row) : List (List Char × Int) :=
  (keepFirstBy id (df.filterMap
    (fun r => r.year.map (fun y => (r.journal_key, y))))).insertionSort
    (fun a b => keyLe a b = true)

/-- `Pipeline._deduplicate`.  `groupby` iterates the sorted group keys,
each group holding its rows in original order; the per-group results
are concatenated.  When there are no groups at all (`deduped == []` is
falsy) the source falls back to the original frame:

    deduped = []
    for (journal_key, year), group in df.groupby(['journal_key', 'year']):
        ... deduped.append(...)
    df = pd.concat(deduped, ...) if deduped else df
-/
def deduplicate (df : List Row) : List Row :=
  let keys := groupKeys df
  if keys = [] then df
  else (keys.map (fun k => dedupGroup (df.filter (inGroup k.1 k.2)))).flatten

/-- The spec's end-to-end dedup scenario, as rows after `_paper_to_row`
(which stores `normalize_doi` of the raw DOI): two rows carrying DOI
`10.1/X` in mixed-case URL-prefixed forms, plus `"A Paper"` and
`"A Paper "` without DOI, all in one collection-year group. -/
def scenarioRows : List Row :=
  [ ⟨("aer".toList), some 2020, normalize_doi (some ("https://doi.org/10.1/X".toList)),
      some ("Paper One".toList)⟩,
    ⟨("aer".toList), some 2020, normalize_doi (some ("HTTPS://DOI.ORG/10.1/x".toList)),
      some ("Paper One".toList)⟩,
    ⟨("aer".toList), some 2020, none, some ("A Paper".toList)⟩,
    ⟨("aer".toList), some 2020, none, some ("A Paper ".toList)⟩ ]

example : (deduplicate scenarioRows).length = 3 := by decide
example :
    deduplicate
      [ ⟨("aer".toList), some 2020, some ("10.1/a".toList), some ("T".toList)⟩,
        ⟨("aer".toList), some 2021, some ("10.1/a".toList), some ("T".toList)⟩ ] =
      [ ⟨("aer".toList), some 2020, some ("10.1/a".toList), some ("T".toList)⟩,
        ⟨("aer".toList), some 2021, some ("10.1/a".toList), some ("T".toList)⟩ ] := by decide
example :
    deduplicate
      [ ⟨("aer".toList), some 2020, some ("10.1/a".toList), some ("Same".toList)⟩,
        ⟨("aer".toList), some 2020, none, some ("Same".toList)⟩,
        ⟨("aer".toList), some 2020, none, some ("same".toList)⟩ ] =
      [ ⟨("aer".toList), some 2020, some ("10.1/a".toList), some ("Same".toList)⟩,
        ⟨("aer".toList), some 2020, none, some ("Same".toList)⟩ ] := by decide

/-- Results carried by the final page outcome the loop sees: a failing
request or body contributes nothing, a page contributes its results. -/
def PageOutcome.finalResults {α : Type} : PageOutcome α → List α
  | .fetchFail => []
  | .parseFail => []
  | .page rs _ => rs

/-- Did the loop exit through the "no next cursor" break (the success
path)?  Fetch/parse failures exit through the failure breaks. -/
def PageOutcome.isSuccessExit {α : Type} : PageOutcome α → Bool
  | .page _ none => true
  | _ => false

/-- Concrete instantiation data for the C2 witness: three parseable
records, a one-line enriched file. -/
def c2Enr : Nat → List Char := fun n => [Char.ofNat (48 + n)]

def c2Raw : List (Option Nat) := [some 0, some 1, some 2]

def c2Ls : List (List Char) := [("a".toList)]

/-- The provenance literal each strategy's helper writes: the three
like-named strategies record their own configured name, but the
`'ideas_repec'` strategy records `'ideas'`. -/
def sourceTag (src : List Char) : List Char :=
  if src = ("ideas_repec".toList) then ("ideas".toList) else src

/-- A strategy attempt that did not produce a result: a raised
exception, or no/empty extraction. -/
def isNoResult : Except Unit (Option JelResult) → Bool
  | .ok (some _) => false
  | _ => true

/-- Strategy environment for the C5 witness: the first strategy raises,
the second succeeds. -/
def c5Env : EnrichEnv :=
  ⟨fun _ => .error (), fun _ => .ok (some ([("D2".toList)], ("t".toList))),
   fun _ => .ok none, fun _ => .ok none⟩

def c5Sources : List (List Char) := [("aea_page".toList), ("crossref".toList)]

def c5Paper : Paper := ⟨some ("10.1/x".toList), none, none, [], [], []⟩

/-- How many times position `p` is covered across all entries. -/
def posCount (ii : List (List Char × List Nat)) (p : Nat) : Nat :=
  (ii.map (fun e => e.2.count p)).sum

/-- The token written last into slot `q` by the fill loop (`None` when no
entry covers `q`): later entries overwrite earlier ones. -/
def lastWriter (ii : List (List Char × List Nat)) (q : Nat) :
    Option (List Char) :=
  match ii with
  | [] => none
  | e :: rest =>
    match lastWriter rest q with
    | some t => some t
    | none => if q ∈ e.2 then some e.1 else none

/-- The core value computed by `normalize_doi` on a non-empty raw string
(before the final `or None`). -/
def normCore (r : List Char) : List Char :=
  pyLower (pyStrip (replaceDoiLabel
    (if ciLead (("http".toList)) (pyStrip r) = true then subDoiUrl (pyStrip r)
     else pyStrip r)))

/-- A concrete frame for exercising `deduplicate_group_scoped`: two rows
sharing a `doi_norm` key (differing in DOI letter case and in title) plus a
DOI-less row whose title matches the first row's. -/
def c1Df : List Row :=
  [ ⟨("aer".toList), some 2020, some ("10.1/a".toList), some ("T".toList)⟩,
    ⟨("aer".toList), some 2020, some ("10.1/A".toList), some ("U".toList)⟩,
    ⟨("aer".toList), some 2020, none, some ("T".toList)⟩ ]

/-! ## Character-level lemmas -/

theorem ofNat_add32_toNat :
    ∀ n, n < 91 → 65 ≤ n → (Char.ofNat (n + 32)).toNat = n + 32 := by decide

theorem toLower_toLower (c : Char) : c.toLower.toLower = c.toLower := by
  by_cases h : 65 ≤ c.toNat ∧ c.toNat ≤ 90
  · have h32 := ofNat_add32_toNat c.toNat (by omega) h.1
    have h1 : c.toLower = Char.ofNat (c.toNat + 32) := by
      unfold Char.toLower
      exact if_pos ⟨h.1, h.2⟩
    rw [h1]
    unfold Char.toLower
    apply if_neg
    intro hh
    rw [h32] at hh
    omega
  · have h1 : c.toLower = c := by
      unfold Char.toLower
      exact if_neg h
    rw [h1]
    exact h1

theorem pyLower_pyLower (l : List Char) : pyLower (pyLower l) = pyLower l := by
  unfold pyLower
  rw [List.map_map]
  apply List.map_congr_left
  intro c _
  exact toLower_toLower c

/-- **C10.** `normalize_doi` returns `None` or a non-empty all-lowercase
string — never the empty string — so a non-`None` result is always a
usable non-empty dedup key. -/
theorem normalize_doi_none_or_nonempty_lower (raw : Option (List Char))
    (s : List Char) (h : normalize_doi raw = some s) :
    s ≠ [] ∧ pyLower s = s := by
  cases raw with
  | none => simp [normalize_doi] at h
  | some r =>
    simp only [normalize_doi] at h
    by_cases hr : r = []
    · rw [if_pos hr] at h; exact absurd h (by simp)
    · rw [if_neg hr] at h
      set t := if ciLead ("http".toList) (pyStrip r) = true then subDoiUrl (pyStrip r)
        else pyStrip r with ht
      split at h
      · exact absurd h (by simp)
      · rename_i hne
        injection h with hs
        constructor
        · rw [← hs]; exact hne
        · rw [← hs, pyLower_pyLower]

/-- Witness for C10 at a concrete input. -/
theorem normalize_doi_none_or_nonempty_lower_witness :
    ("10.1/x".toList) ≠ [] ∧ pyLower ("10.1/x".toList) = ("10.1/x".toList) :=
  normalize_doi_none_or_nonempty_lower (some ("10.1/X".toList)) ("10.1/x".toList)
    (by decide)

/-! ## C7: retry/backoff behaviour of `http_get` -/

theorem httpGetGo_spec (oracle : Nat → AttemptOutcome) :
    ∀ left attempt delay,
    (httpGetGo oracle left attempt delay).2.1 ≤ left
    ∧ (httpGetGo oracle left attempt delay).2.2 =
        (List.range ((httpGetGo oracle left attempt delay).2.1 - 1)).map
          (fun i => delay * 2 ^ i)
    ∧ ((∀ i, attempt ≤ i → i < attempt + left → attemptFails (oracle i) = true) →
        (httpGetGo oracle left attempt delay).1 = none
        ∧ (httpGetGo oracle left attempt delay).2.1 = left)
    ∧ (∀ s, (httpGetGo oracle left attempt delay).1 = some s →
        raisesForStatus s = false)
    ∧ (left = 0 ∨ 1 ≤ (httpGetGo oracle left attempt delay).2.1) := by
  intro left
  induction left with
  | zero =>
    intro attempt delay
    refine ⟨Nat.le_refl 0, by simp [httpGetGo], fun _ => ⟨rfl, rfl⟩, ?_, Or.inl rfl⟩
    intro s hs
    simp [httpGetGo] at hs
  | succ l ih =>
    intro attempt delay
    obtain ⟨ih1, ih2, ih3, ih4, ih5⟩ := ih (attempt + 1) (delay * 2)
    rcases hgo : httpGetGo oracle l (attempt + 1) (delay * 2) with ⟨r, n, sl⟩
    rw [hgo] at ih1 ih2 ih3 ih4 ih5
    dsimp only at ih1 ih2 ih3 ih4 ih5
    unfold httpGetGo
    rw [hgo]
    cases horc : oracle attempt with
    | response s =>
      dsimp only
      by_cases hrs : raisesForStatus s = true
      · rw [if_pos hrs]
        by_cases hl : l = 0
        · rw [if_pos hl]
          subst hl
          refine ⟨by dsimp only; omega, by simp, fun _ => ⟨rfl, rfl⟩, ?_,
            Or.inr (by dsimp only; omega)⟩
          intro s' hs'
          simp at hs'
        · rw [if_neg hl]
          have hn1 : 1 ≤ n := by
            rcases ih5 with h0 | h1
            · exact absurd h0 hl
            · exact h1
          refine ⟨by dsimp only; omega, ?_, ?_, ?_, Or.inr (by dsimp only; omega)⟩
          · dsimp only
            have hnn : n + 1 - 1 = (n - 1) + 1 := by omega
            rw [hnn, List.range_succ_eq_map, List.map_cons, List.map_map, ih2]
            refine congrArg₂ _ (by simp) ?_
            apply List.map_congr_left
            intro i _
            simp only [Function.comp, pow_succ]
            ring
          · intro hall
            have hres := ih3 (fun i hi1 hi2 => hall i (by omega) (by omega))
            exact ⟨hres.1, by dsimp only; omega⟩
          · intro s' hs'
            exact ih4 s' hs'
      · rw [if_neg hrs]
        refine ⟨by dsimp only; omega, by simp, ?_, ?_, Or.inr (by dsimp only; omega)⟩
        · intro hall
          have hfail := hall attempt (Nat.le_refl _) (by omega)
          rw [horc] at hfail
          simp only [attemptFails] at hfail
          exact absurd hfail hrs
        · intro s' hs'
          dsimp only at hs'
          injection hs' with hss
          rw [← hss]
          exact Bool.not_eq_true _ ▸ Bool.of_not_eq_true hrs
    | transportError =>
      dsimp only
      by_cases hl : l = 0
      · rw [if_pos hl]
        subst hl
        refine ⟨by dsimp only; omega, by simp, fun _ => ⟨rfl, rfl⟩, ?_,
          Or.inr (by dsimp only; omega)⟩
        intro s' hs'
        simp at hs'
      · rw [if_neg hl]
        have hn1 : 1 ≤ n := by
          rcases ih5 with h0 | h1
          · exact absurd h0 hl
          · exact h1
        refine ⟨by dsimp only; omega, ?_, ?_, ?_, Or.inr (by dsimp only; omega)⟩
        · dsimp only
          have hnn : n + 1 - 1 = (n - 1) + 1 := by omega
          rw [hnn, List.range_succ_eq_map, List.map_cons, List.map_map, ih2]
          refine congrArg₂ _ (by simp) ?_
          apply List.map_congr_left
          intro i _
          simp only [Function.comp, pow_succ]
          ring
        · intro hall
          have hres := ih3 (fun i hi1 hi2 => hall i (by omega) (by omega))
          exact ⟨hres.1, by dsimp only; omega⟩
        · intro s' hs'
          exact ih4 s' hs'


/-- **C7, counterexample.**  The claim says a *non-2xx* status triggers
wait-and-retry.  But `raise_for_status` only raises for 4xx/5xx: an
oracle answering 304 (not a 2xx) makes `http_get` return the response
at the very first attempt — one attempt, no sleep, no retry — although
three attempts were allowed. -/
theorem http_get_304_not_retried :
    http_get (fun _ => AttemptOutcome.response 304) 3 = (some 304, 1, [])
    ∧ ¬(200 ≤ 304 ∧ 304 < 300) ∧ raisesForStatus 304 = false := by decide

/-- **C7, amended.**  For `retries ≥ 1`, `http_get` performs at most
`retries` attempts; the sleeps between consecutive attempts are exactly
1, 2, 4, … seconds (delay doubling from 1s); a returned response never
has a 4xx/5xx status; and when every attempt fails — a transport error
or a 4xx/5xx status, the statuses `raise_for_status` raises for — all
`retries` attempts are used and the failure sentinel `None` is returned
instead of an exception propagating. -/
theorem http_get_retries_backoff (oracle : Nat → AttemptOutcome)
    (retries : Nat) (_hr : 1 ≤ retries) :
    (http_get oracle retries).2.1 ≤ retries
    ∧ (http_get oracle retries).2.2 =
        (List.range ((http_get oracle retries).2.1 - 1)).map (fun i => 2 ^ i)
    ∧ ((∀ i, 1 ≤ i → i ≤ retries → attemptFails (oracle i) = true) →
        (http_get oracle retries).1 = none
        ∧ (http_get oracle retries).2.1 = retries)
    ∧ (∀ s, (http_get oracle retries).1 = some s →
        raisesForStatus s = false) := by
  obtain ⟨h1, h2, h3, h4, _⟩ := httpGetGo_spec oracle retries 1 1
  refine ⟨h1, ?_, ?_, h4⟩
  · show (httpGetGo oracle retries 1 1).2.2 = _
    rw [h2]
    apply List.map_congr_left
    intro i _
    omega
  · intro hall
    exact h3 (fun i hi1 hi2 => hall i hi1 (by omega))

/-- Witness for C7 at a concrete input: both attempts fail, one 1-second
sleep happens, `None` comes back. -/
theorem http_get_retries_backoff_witness :
    (http_get (fun _ => AttemptOutcome.transportError) 2).2.1 ≤ 2
    ∧ (http_get (fun _ => AttemptOutcome.transportError) 2).2.2 =
        (List.range ((http_get (fun _ => AttemptOutcome.transportError) 2).2.1 - 1)).map
          (fun i => 2 ^ i)
    ∧ ((∀ i, 1 ≤ i → i ≤ 2 →
          attemptFails ((fun _ => AttemptOutcome.transportError) i) = true) →
        (http_get (fun _ => AttemptOutcome.transportError) 2).1 = none
        ∧ (http_get (fun _ => AttemptOutcome.transportError) 2).2.1 = 2)
    ∧ (∀ s, (http_get (fun _ => AttemptOutcome.transportError) 2).1 = some s →
        raisesForStatus s = false) :=
  http_get_retries_backoff (fun _ => AttemptOutcome.transportError) 2 (by decide)

/-! ## C8: pagination accumulates pages and keeps partial results -/

theorem fetchYearGo_chain {α : Type} (oracle : List Char → PageOutcome α)
    (cs : Nat → List Char) (rs : Nat → List α) (t : PageOutcome α)
    (ht : t.isContinuing = false) :
    ∀ n fuel start acc,
    (∀ i, i < n → oracle (cs (start + i)) =
      PageOutcome.page (rs (start + i)) (some (cs (start + i + 1)))) →
    oracle (cs (start + n)) = t →
    n < fuel →
    fetchYearGo oracle fuel (cs start) acc =
      some (acc ++ ((List.range n).map (fun i => rs (start + i))).flatten
              ++ t.finalResults, t.isSuccessExit) := by
  intro n
  induction n with
  | zero =>
    intro fuel start acc _ hterm hfuel
    match fuel, hfuel with
    | f + 1, _ =>
      unfold fetchYearGo
      rw [show start + 0 = start from rfl] at hterm
      rw [hterm]
      cases t with
      | fetchFail => simp [PageOutcome.finalResults, PageOutcome.isSuccessExit]
      | parseFail => simp [PageOutcome.finalResults, PageOutcome.isSuccessExit]
      | page prs nxt =>
        cases nxt with
        | none => simp [PageOutcome.finalResults, PageOutcome.isSuccessExit]
        | some c' => simp [PageOutcome.isContinuing] at ht
  | succ m ih =>
    intro fuel start acc hchain hterm hfuel
    match fuel, hfuel with
    | f + 1, _ =>
      unfold fetchYearGo
      have h0 := hchain 0 (by omega)
      rw [show start + 0 = start from rfl] at h0
      rw [h0]
      dsimp only
      have hrec := ih f (start + 1) (acc ++ rs start)
        (fun i hi => by
          have h := hchain (i + 1) (by omega)
          rw [show start + (i + 1) = start + 1 + i by omega] at h
          exact h)
        (by rw [show start + 1 + m = start + (m + 1) by omega]; exact hterm)
        (by omega)
      rw [hrec]
      have hflat : ((List.range (m + 1)).map (fun i => rs (start + i))).flatten
          = rs start ++ ((List.range m).map (fun i => rs (start + 1 + i))).flatten := by
        rw [List.range_succ_eq_map, List.map_cons, List.map_map]
        simp only [List.flatten_cons]
        congr 1
        apply congrArg
        apply List.map_congr_left
        intro i _
        simp only [Function.comp]
        congr 1
        omega
      rw [hflat, ← List.append_assoc]

/-- **C8.**  For every run in which the server serves `n` cursor-chained
pages and then a terminal outcome (a page with no next cursor, a request
that exhausted its retries, or an unparseable body), `_fetch_year`
accumulates the results of all served pages in order; it exits through
the success break exactly when the terminal outcome is a page with no
next cursor; and on a fetch or parse failure it still returns everything
accumulated from the earlier pages instead of raising or discarding
them.  (Hypotheses: robots.txt checking is off or allows the URL; the
cursor chain starts at the `"*"` token; `fuel` exceeds the page count —
`fuel` is only the instrument that makes the `while True` loop a total
function.) -/
theorem fetch_year_accumulates {α : Type} (respectRobots robotsAllows : Bool)
    (oracle : List Char → PageOutcome α) (cs : Nat → List Char)
    (rs : Nat → List α) (t : PageOutcome α) (n fuel : Nat)
    (hrobots : respectRobots = false ∨ robotsAllows = true)
    (hc0 : cs 0 = ("*".toList))
    (hchain : ∀ i, i < n → oracle (cs i) =
      PageOutcome.page (rs i) (some (cs (i + 1))))
    (hterm : oracle (cs n) = t)
    (ht : t.isContinuing = false)
    (hfuel : n < fuel) :
    fetch_year respectRobots robotsAllows oracle fuel =
      some (((List.range n).map rs).flatten ++ t.finalResults,
            t.isSuccessExit) := by
  unfold fetch_year
  have hguard : (respectRobots && !robotsAllows) = false := by
    rcases hrobots with h | h <;> simp [h]
  rw [hguard]
  simp only [Bool.false_eq_true, if_false]
  rw [← hc0]
  have := fetchYearGo_chain oracle cs rs t ht n fuel 0 []
    (fun i hi => by simpa using hchain i hi)
    (by simpa using hterm) hfuel
  rw [this]
  simp

/-- Witness for C8: one full page, then a fetch failure — the page's
results survive and the exit is the failure path. -/
theorem fetch_year_accumulates_witness :
    fetch_year false true
      (fun c => if c = ("*".toList) then
          PageOutcome.page [10, 20] (some ("cur1".toList))
        else PageOutcome.fetchFail)
      5 = some ([10, 20], false) :=
  (fetch_year_accumulates false true
    (fun c => if c = ("*".toList) then
        PageOutcome.page [10, 20] (some ("cur1".toList))
      else PageOutcome.fetchFail)
    (fun i => if i = 0 then ("*".toList) else ("cur1".toList))
    (fun _ => [10, 20]) PageOutcome.fetchFail 1 5
    (Or.inl rfl) rfl
    (fun i hi => by
      have hz : i = 0 := by omega
      subst hz
      rfl)
    rfl rfl (by omega)).trans (by decide)

/-! ## C2: resumable enrichment -/

/-- **C2 (counterexample).**  The driver counts already-done lines by
`line.strip()` truthiness, not by line count: an existing enriched file of
one whitespace-only line (`k = 1` line) with two parseable raw records
(`N = 2`) counts zero done records, so the run appends *both* records and
the file ends with 3 lines, not `N = 2` — re-running does not append
records `k..N-1` when a line is blank after stripping. -/
theorem enrich_file_blank_line_counterexample :
    enrich_file c2Enr [some 0, some 1] (some [(" ".toList)])
      = some [(" ".toList), ("0".toList), ("1".toList)]
    ∧ ([(" ".toList)] : List (List Char)).length = 1
    ∧ ([some 0, some 1] : List (Option Nat)).reduceOption.length = 2
    ∧ ([(" ".toList), ("0".toList), ("1".toList)] : List (List Char)).length
        = 3 :=
  ⟨by decide, by decide, by decide, by decide⟩

/-- **C2 (amended).**  For a raw file whose parseable records are `papers`
(`N = papers.length`) and an existing enriched file `ls`, let `k` be the
number of lines of `ls` that are non-empty after stripping whitespace
(`line.strip()` truthy): when `k < N` re-running the driver leaves `ls`
unchanged and appends exactly the enrichment of records `k..N-1` in input
order; when every existing line is non-blank, `k` is the line count and
the resulting file has exactly `N` lines; when `k ≥ N` the run is a
no-op. -/
theorem enrich_file_resumes {ρ : Type} (enr : ρ → List Char)
    (rawLines : List (Option ρ)) (ls : List (List Char)) :
    ((ls.filter (fun l => pyStrip l ≠ [])).length
        < rawLines.reduceOption.length →
      enrich_file enr rawLines (some ls) =
        some (ls ++ ((rawLines.reduceOption.drop
          (ls.filter (fun l => pyStrip l ≠ [])).length).map enr)))
    ∧ ((∀ l ∈ ls, pyStrip l ≠ []) →
        (ls.filter (fun l => pyStrip l ≠ [])).length = ls.length
        ∧ (ls.length < rawLines.reduceOption.length →
            (ls ++ ((rawLines.reduceOption.drop ls.length).map enr)).length
              = rawLines.reduceOption.length))
    ∧ (rawLines.reduceOption.length
        ≤ (ls.filter (fun l => pyStrip l ≠ [])).length →
      enrich_file enr rawLines (some ls) = some ls) := by
  refine ⟨?_, ?_, ?_⟩
  · intro hlt
    have hpe : ¬(rawLines.reduceOption.isEmpty = true) := by
      cases hq : rawLines.reduceOption with
      | nil => rw [hq] at hlt; simp at hlt
      | cons a as => simp
    simp only [enrich_file]
    rw [if_neg hpe, if_neg (by omega)]
    rfl
  · intro hall
    have hfilter : ls.filter (fun l => pyStrip l ≠ []) = ls := by
      rw [List.filter_eq_self]
      intro a ha
      simpa using hall a ha
    refine ⟨by rw [hfilter], ?_⟩
    intro hlt
    rw [List.length_append, List.length_map, List.length_drop]
    omega
  · intro hle
    by_cases hq : rawLines.reduceOption.isEmpty = true
    · simp only [enrich_file]
      rw [if_pos hq]
    · simp only [enrich_file]
      rw [if_neg hq, if_pos (by omega)]

/-- Witness for C2: three parseable records against a one-line enriched
file (the run appends the last two enrichments) and against a fully
enriched three-line file (a no-op). -/
theorem enrich_file_resumes_witness :
    (enrich_file c2Enr c2Raw (some c2Ls) =
      some (c2Ls ++ ((c2Raw.reduceOption.drop
        (c2Ls.filter (fun l => pyStrip l ≠ [])).length).map c2Enr)))
    ∧ ((c2Ls.filter (fun l => pyStrip l ≠ [])).length = c2Ls.length
        ∧ (c2Ls ++ ((c2Raw.reduceOption.drop c2Ls.length).map c2Enr)).length
            = c2Raw.reduceOption.length)
    ∧ (enrich_file c2Enr c2Raw
        (some [("a".toList), ("b".toList), ("c".toList)])
        = some [("a".toList), ("b".toList), ("c".toList)]) :=
  ⟨(enrich_file_resumes c2Enr c2Raw c2Ls).1 (by decide),
   ⟨((enrich_file_resumes c2Enr c2Raw c2Ls).2.1 (by decide)).1,
    ((enrich_file_resumes c2Enr c2Raw c2Ls).2.1 (by decide)).2 (by decide)⟩,
   (enrich_file_resumes c2Enr c2Raw
     [("a".toList), ("b".toList), ("c".toList)]).2.2 (by decide)⟩

/-! ## C5: fallback enrichment chain -/

theorem fetchJelWith_success {tag : List Char}
    {e : Except Unit (Option (List (List Char) × List Char))} {r : JelResult}
    (h : fetchJelWith tag e = .ok (some r)) :
    r.codes ≠ [] ∧ r.src = tag := by
  match e with
  | .error u => simp [fetchJelWith] at h
  | .ok none => simp [fetchJelWith] at h
  | .ok (some (jels, raw)) =>
    simp only [fetchJelWith] at h
    split at h
    · simp at h
    · rename_i hne
      injection h with h'
      injection h' with h''
      rw [← h'']
      exact ⟨hne, rfl⟩

theorem tryStrategy_success {env : EnrichEnv} {doi oid : Option (List Char)}
    {src : List Char} {r : JelResult}
    (h : tryStrategy env doi oid src = .ok (some r)) :
    r.codes ≠ [] ∧ r.src = sourceTag src := by
  unfold tryStrategy at h
  split at h
  · rename_i hc
    have hs : src = ("aea_page".toList) := by
      have := (Bool.and_eq_true _ _).mp hc
      exact of_decide_eq_true this.1
    obtain ⟨h1, h2⟩ := fetchJelWith_success h
    subst hs
    exact ⟨h1, by rw [h2]; decide⟩
  · split at h
    · rename_i hc
      have hs : src = ("crossref".toList) := by
        have := (Bool.and_eq_true _ _).mp hc
        exact of_decide_eq_true this.1
      obtain ⟨h1, h2⟩ := fetchJelWith_success h
      subst hs
      exact ⟨h1, by rw [h2]; decide⟩
    · split at h
      · rename_i hc
        have hs : src = ("openalex".toList) := by
          have := (Bool.and_eq_true _ _).mp hc
          exact of_decide_eq_true this.1
        obtain ⟨h1, h2⟩ := fetchJelWith_success h
        subst hs
        exact ⟨h1, by rw [h2]; decide⟩
      · split at h
        · rename_i hc
          have hs : src = ("ideas_repec".toList) := by
            have := (Bool.and_eq_true _ _).mp hc
            exact of_decide_eq_true this.1
          obtain ⟨h1, h2⟩ := fetchJelWith_success h
          subst hs
          exact ⟨h1, by rw [h2]; decide⟩
        · simp at h

theorem enrichChain_all_fail (env : EnrichEnv) (doi oid : Option (List Char)) :
    ∀ sources : List (List Char),
    (∀ i (hi : i < sources.length),
      isNoResult (tryStrategy env doi oid (sources.get ⟨i, hi⟩)) = true) →
    enrichChain env doi oid sources = none := by
  intro sources
  induction sources with
  | nil => intro _; rfl
  | cons s rest ih =>
    intro hall
    have h0 := hall 0 (by simp)
    cases htry : tryStrategy env doi oid s with
    | error u =>
      unfold enrichChain
      rw [htry]
      exact ih (fun i hi => hall (i + 1) (by simpa using hi))
    | ok o =>
      cases o with
      | none =>
        unfold enrichChain
        rw [htry]
        exact ih (fun i hi => hall (i + 1) (by simpa using hi))
      | some r =>
        rw [show (s :: rest).get ⟨0, by simp⟩ = s from rfl, htry] at h0
        simp [isNoResult] at h0

theorem enrichChain_first_success (env : EnrichEnv)
    (doi oid : Option (List Char)) :
    ∀ (sources : List (List Char)) (i : Nat) (hi : i < sources.length)
      (r : JelResult),
    tryStrategy env doi oid (sources.get ⟨i, hi⟩) = .ok (some r) →
    (∀ j (hj : j < i),
      isNoResult (tryStrategy env doi oid
        (sources.get ⟨j, Nat.lt_trans hj hi⟩)) = true) →
    enrichChain env doi oid sources = some r := by
  intro sources
  induction sources with
  | nil => intro i hi; simp at hi
  | cons s rest ih =>
    intro i hi r hsucc hfirst
    cases i with
    | zero =>
      rw [show (s :: rest).get ⟨0, hi⟩ = s from rfl] at hsucc
      unfold enrichChain
      rw [hsucc]
    | succ i' =>
      have h0 := hfirst 0 (by omega)
      rw [show (s :: rest).get ⟨0, _⟩ = s from rfl] at h0
      cases htry : tryStrategy env doi oid s with
      | error u =>
        unfold enrichChain
        rw [htry]
        exact ih i' (by simpa using hi) r hsucc
          (fun j hj => hfirst (j + 1) (by omega))
      | ok o =>
        cases o with
        | none =>
          unfold enrichChain
          rw [htry]
          exact ih i' (by simpa using hi) r hsucc
            (fun j hj => hfirst (j + 1) (by omega))
        | some r' =>
          rw [htry] at h0
          simp [isNoResult] at h0

/-- **C5, counterexample.**  The claim says the winning strategy's
*name* is recorded as the provenance tag.  Run a chain configured as
`['ideas_repec']` against an environment where only the IDEAS lookup
yields codes: the record is tagged `'ideas'`, not the strategy's
configured name `'ideas_repec'`. -/
theorem enrich_paper_ideas_tag_mismatch :
    (enrich_paper
        ⟨fun _ => .ok none, fun _ => .ok none, fun _ => .ok none,
         fun _ => .ok (some ([("L1".toList)], ("raw".toList)))⟩
        [("ideas_repec".toList)]
        ⟨some ("10.1/x".toList), none, none, [], [], []⟩).jelSource =
      ("ideas".toList)
    ∧ (enrich_paper
        ⟨fun _ => .ok none, fun _ => .ok none, fun _ => .ok none,
         fun _ => .ok (some ([("L1".toList)], ("raw".toList)))⟩
        [("ideas_repec".toList)]
        ⟨some ("10.1/x".toList), none, none, [], [], []⟩).jelCodes ≠ []
    ∧ (enrich_paper
        ⟨fun _ => .ok none, fun _ => .ok none, fun _ => .ok none,
         fun _ => .ok (some ([("L1".toList)], ("raw".toList)))⟩
        [("ideas_repec".toList)]
        ⟨some ("10.1/x".toList), none, none, [], [], []⟩).jelSource ≠
      ("ideas_repec".toList) := by decide

/-- **C5, amended.**  For every record and configured strategy order,
the strategies are tried strictly in order; the first attempt returning
a non-empty code list wins, its codes and raw text are recorded, and
the provenance tag is the strategy's helper literal — the configured
name for `'aea_page'`/`'crossref'`/`'openalex'`, but `'ideas'` for the
`'ideas_repec'` strategy; earlier attempts that raised an exception
(`.error`) or yielded nothing are skipped without the exception
propagating.  If every strategy yields nothing, the record is finalized
with empty codes and provenance `'missing'` rather than an error. -/
theorem enrich_paper_chain (env : EnrichEnv) (sources : List (List Char))
    (p : Paper) :
    ((∀ i (hi : i < sources.length),
        isNoResult (tryStrategy env
          (normalize_doi (pyOrOpt p.doiRaw p.idsDoi)) p.openalexId
          (sources.get ⟨i, hi⟩)) = true) →
      (enrich_paper env sources p).jelCodes = []
      ∧ (enrich_paper env sources p).jelRaw = []
      ∧ (enrich_paper env sources p).jelSource = ("missing".toList))
    ∧ (∀ i (hi : i < sources.length) (r : JelResult),
        tryStrategy env (normalize_doi (pyOrOpt p.doiRaw p.idsDoi))
          p.openalexId (sources.get ⟨i, hi⟩) = .ok (some r) →
        (∀ j (hj : j < i),
          isNoResult (tryStrategy env
            (normalize_doi (pyOrOpt p.doiRaw p.idsDoi)) p.openalexId
            (sources.get ⟨j, Nat.lt_trans hj hi⟩)) = true) →
        (enrich_paper env sources p).jelCodes = r.codes
        ∧ (enrich_paper env sources p).jelRaw = r.raw
        ∧ (enrich_paper env sources p).jelSource = r.src
        ∧ r.codes ≠ []
        ∧ r.src = sourceTag (sources.get ⟨i, hi⟩)) := by
  constructor
  · intro hall
    have hch := enrichChain_all_fail env
      (normalize_doi (pyOrOpt p.doiRaw p.idsDoi)) p.openalexId sources hall
    unfold enrich_paper
    dsimp only
    rw [hch]
    exact ⟨rfl, rfl, rfl⟩
  · intro i hi r hsucc hfirst
    have hch := enrichChain_first_success env
      (normalize_doi (pyOrOpt p.doiRaw p.idsDoi)) p.openalexId sources
      i hi r hsucc hfirst
    have hts := tryStrategy_success hsucc
    unfold enrich_paper
    dsimp only
    rw [hch]
    exact ⟨rfl, rfl, rfl, hts.1, hts.2⟩

/-- Witness for C5: with an erroring first strategy, the second one wins
and its fields land on the record. -/
theorem enrich_paper_chain_witness :
    (enrich_paper c5Env c5Sources c5Paper).jelCodes = [("D2".toList)]
    ∧ (enrich_paper c5Env c5Sources c5Paper).jelSource = ("crossref".toList) :=
  have h := (enrich_paper_chain c5Env c5Sources c5Paper).2 1 (by decide)
    ⟨[("D2".toList)], ("t".toList), ("crossref".toList)⟩ rfl
    (fun j hj => by
      have hz : j = 0 := by omega
      subst hz
      rfl)
  ⟨h.1, h.2.2.1⟩

/-! ## C6: the extractor returns exactly the whole-token matches -/

theorem wordTokens_nil : wordTokens [] = [] := by
  simp [wordTokens]

theorem wordTokens_cons_word {c : Char} {cs : List Char}
    (h : isWordChar c = true) :
    wordTokens (c :: cs) =
      (c :: cs.takeWhile isWordChar) :: wordTokens (cs.dropWhile isWordChar) := by
  rw [wordTokens]
  rw [if_pos h]

theorem wordTokens_cons_nonword {c : Char} {cs : List Char}
    (h : isWordChar c = false) :
    wordTokens (c :: cs) = wordTokens cs := by
  rw [wordTokens]
  rw [if_neg (by rw [h]; simp)]

theorem isWordChar_of_isUpper {c : Char} (h : c.isUpper = true) :
    isWordChar c = true := by
  simp [isWordChar, Char.isAlpha, h]

theorem isWordChar_of_isDigit {c : Char} (h : c.isDigit = true) :
    isWordChar c = true := by
  simp [isWordChar, h]

theorem isJelToken_single (c : Char) : isJelToken [c] = false := rfl

theorem isJelToken_long (c d e r : Char) (ts : List Char) :
    isJelToken (c :: d :: e :: r :: ts) = false := rfl

theorem isJelToken_nonupper {c : Char} (hcu : c.isUpper = false)
    (t : List Char) : isJelToken (c :: t) = false := by
  match t with
  | [] => rfl
  | [d] => simp [isJelToken, hcu]
  | [d, e] => simp [isJelToken, hcu]
  | d :: e :: r :: ts => rfl

/-- When both digit alternatives of `[A-Z]\d{1,2}\b` fail at a position,
the whole token starting there is not a code. -/
theorem isJelToken_fail {c d1 d2 : Char} {rest : List Char}
    (hf1 : ¬(d1.isDigit && d2.isDigit && nextBoundary rest) = true)
    (hf2 : ¬(d1.isDigit && !isWordChar d2) = true) :
    isJelToken (c :: (d1 :: d2 :: rest).takeWhile isWordChar) = false := by
  by_cases hd1w : isWordChar d1 = true
  · rw [List.takeWhile_cons, if_pos hd1w]
    by_cases hd2w : isWordChar d2 = true
    · rw [List.takeWhile_cons, if_pos hd2w]
      match rest with
      | [] =>
        simp only [List.takeWhile_nil]
        simp only [nextBoundary, Bool.and_true] at hf1
        show (c.isUpper && d1.isDigit && d2.isDigit) = false
        cases hd1 : d1.isDigit with
        | false => simp [hd1]
        | true =>
          cases hd2 : d2.isDigit with
          | false => simp [hd2]
          | true => exact absurd (by rw [hd1, hd2]; rfl) hf1
      | r :: rr =>
        by_cases hrw : isWordChar r = true
        · rw [List.takeWhile_cons, if_pos hrw]
          exact isJelToken_long _ _ _ _ _
        · rw [Bool.not_eq_true] at hrw
          rw [List.takeWhile_cons, if_neg (by rw [hrw]; simp)]
          have hnb : nextBoundary (r :: rr) = true := by
            simp [nextBoundary, hrw]
          rw [hnb, Bool.and_true] at hf1
          show (c.isUpper && d1.isDigit && d2.isDigit) = false
          cases hd1 : d1.isDigit with
          | false => simp [hd1]
          | true =>
            cases hd2 : d2.isDigit with
            | false => simp [hd2]
            | true => exact absurd (by rw [hd1, hd2]; rfl) hf1
    · rw [Bool.not_eq_true] at hd2w
      rw [List.takeWhile_cons, if_neg (by rw [hd2w]; simp)]
      have hd1d : d1.isDigit = false := by
        by_contra hcd
        rw [Bool.not_eq_false] at hcd
        exact hf2 (by rw [hcd, hd2w]; rfl)
      show (c.isUpper && d1.isDigit) = false
      simp [hd1d]
  · rw [Bool.not_eq_true] at hd1w
    rw [List.takeWhile_cons, if_neg (by rw [hd1w]; simp)]
    exact isJelToken_single c

theorem prevBoundary_some (x : Char) : prevBoundary (some x) = !isWordChar x :=
  rfl

theorem takeWhile_nil_of_nextBoundary {rest : List Char}
    (h : nextBoundary rest = true) : rest.takeWhile isWordChar = [] := by
  cases rest with
  | nil => rfl
  | cons r rr =>
    simp only [nextBoundary, Bool.not_eq_true'] at h
    rw [List.takeWhile_cons, if_neg (by rw [h]; simp)]

theorem dropWhile_self_of_nextBoundary {rest : List Char}
    (h : nextBoundary rest = true) : rest.dropWhile isWordChar = rest := by
  cases rest with
  | nil => rfl
  | cons r rr =>
    simp only [nextBoundary, Bool.not_eq_true'] at h
    rw [List.dropWhile_cons, if_neg (by rw [h]; simp)]

/-- The regex scan over any text, from any engine state, returns exactly
the code-shaped whole tokens of the remaining text (tokens begun before
the current position excluded), in order. -/
theorem jelScan_eq_wordTokens (n : Nat) :
    ∀ (l : List Char), l.length ≤ n → ∀ (prev : Option Char),
    jelScan l prev =
      (if prevBoundary prev = true then wordTokens l
       else wordTokens (l.dropWhile isWordChar)).filter isJelToken := by
  induction n with
  | zero =>
    intro l hl prev
    have hnil : l = [] := by
      cases l with
      | nil => rfl
      | cons a as => simp at hl
    subst hnil
    rw [show jelScan [] prev = [] from rfl, List.dropWhile_nil, wordTokens_nil]
    simp
  | succ n ih =>
    intro l hl prev
    cases l with
    | nil =>
      rw [show jelScan [] prev = [] from rfl, List.dropWhile_nil, wordTokens_nil]
      simp
    | cons c l1 =>
      cases l1 with
      | nil =>
        by_cases hpb : prevBoundary prev = true
        · rw [if_pos hpb]
          by_cases hcu : c.isUpper = true
          · have hj : jelScan [c] prev = [] := by
              conv_lhs => unfold jelScan
              rw [if_pos (by rw [hpb, hcu]; rfl)]
            rw [hj, wordTokens_cons_word (isWordChar_of_isUpper hcu),
              List.takeWhile_nil, List.dropWhile_nil, wordTokens_nil,
              List.filter_cons, isJelToken_single]
            rfl
          · rw [Bool.not_eq_true] at hcu
            have hj : jelScan [c] prev = [] := by
              conv_lhs => unfold jelScan
              rw [if_neg (by rw [hcu]; simp)]
              rfl
            rw [hj]
            by_cases hw : isWordChar c = true
            · rw [wordTokens_cons_word hw, List.takeWhile_nil,
                List.dropWhile_nil, wordTokens_nil, List.filter_cons,
                isJelToken_single]
              rfl
            · rw [Bool.not_eq_true] at hw
              rw [wordTokens_cons_nonword hw, wordTokens_nil]
              rfl
        · rw [if_neg hpb]
          rw [Bool.not_eq_true] at hpb
          have hj : jelScan [c] prev = [] := by
            conv_lhs => unfold jelScan
            rw [if_neg (by rw [hpb]; simp)]
            rfl
          rw [hj]
          by_cases hw : isWordChar c = true
          · rw [List.dropWhile_cons, if_pos hw, List.dropWhile_nil,
              wordTokens_nil]
            rfl
          · rw [Bool.not_eq_true] at hw
            rw [List.dropWhile_cons, if_neg (by rw [hw]; simp),
              wordTokens_cons_nonword hw, wordTokens_nil]
            rfl
      | cons d1 l2 =>
        cases l2 with
        | nil =>
          have hlen1 : ([d1] : List Char).length ≤ n := by
            simp at hl ⊢
            omega
          by_cases hpb : prevBoundary prev = true
          · rw [if_pos hpb]
            by_cases hcu : c.isUpper = true
            · have hwc := isWordChar_of_isUpper hcu
              by_cases hd1 : d1.isDigit = true
              · have hj : jelScan [c, d1] prev = [[c, d1]] := by
                  conv_lhs => unfold jelScan
                  rw [if_pos (by rw [hpb, hcu]; rfl), if_pos hd1]
                have hwd := isWordChar_of_isDigit hd1
                rw [hj, wordTokens_cons_word hwc, List.takeWhile_cons,
                  if_pos hwd, List.takeWhile_nil, List.dropWhile_cons,
                  if_pos hwd, List.dropWhile_nil, wordTokens_nil,
                  List.filter_cons,
                  show isJelToken [c, d1] = true from by
                    show (c.isUpper && d1.isDigit) = true
                    rw [hcu, hd1]
                    rfl]
                rfl
              · rw [Bool.not_eq_true] at hd1
                have hj : jelScan [c, d1] prev = jelScan [d1] (some c) := by
                  conv_lhs => unfold jelScan
                  rw [if_pos (by rw [hpb, hcu]; rfl), if_neg (by rw [hd1]; simp)]
                rw [hj, ih [d1] hlen1 (some c), prevBoundary_some, hwc]
                rw [if_neg (by simp), wordTokens_cons_word hwc]
                by_cases hwd : isWordChar d1 = true
                · rw [List.takeWhile_cons, if_pos hwd, List.takeWhile_nil,
                    List.dropWhile_cons, if_pos hwd, List.dropWhile_nil,
                    List.filter_cons,
                    show isJelToken [c, d1] = false from by
                      show (c.isUpper && d1.isDigit) = false
                      rw [hd1]
                      simp]
                  simp
                · rw [Bool.not_eq_true] at hwd
                  rw [List.takeWhile_cons, if_neg (by rw [hwd]; simp),
                    List.dropWhile_cons, if_neg (by rw [hwd]; simp),
                    List.filter_cons, isJelToken_single]
                  simp
            · rw [Bool.not_eq_true] at hcu
              have hj : jelScan [c, d1] prev = jelScan [d1] (some c) := by
                conv_lhs => unfold jelScan
                rw [if_neg (by rw [hcu]; simp)]
              rw [hj, ih [d1] hlen1 (some c), prevBoundary_some]
              by_cases hwc : isWordChar c = true
              · rw [hwc, if_neg (by simp), wordTokens_cons_word hwc]
                by_cases hwd : isWordChar d1 = true
                · rw [List.takeWhile_cons, if_pos hwd, List.takeWhile_nil,
                    List.dropWhile_cons, if_pos hwd, List.dropWhile_nil,
                    List.filter_cons, isJelToken_nonupper hcu]
                  simp
                · rw [Bool.not_eq_true] at hwd
                  rw [List.takeWhile_cons, if_neg (by rw [hwd]; simp),
                    List.dropWhile_cons, if_neg (by rw [hwd]; simp),
                    List.filter_cons, isJelToken_single]
                  simp
              · rw [Bool.not_eq_true] at hwc
                rw [hwc, if_pos (by simp), wordTokens_cons_nonword hwc]
          · rw [if_neg hpb]
            rw [Bool.not_eq_true] at hpb
            have hj : jelScan [c, d1] prev = jelScan [d1] (some c) := by
              conv_lhs => unfold jelScan
              rw [if_neg (by rw [hpb]; simp)]
            rw [hj, ih [d1] hlen1 (some c), prevBoundary_some]
            by_cases hwc : isWordChar c = true
            · rw [hwc, if_neg (by simp)]
              conv_rhs => rw [List.dropWhile_cons, if_pos hwc]
            · rw [Bool.not_eq_true] at hwc
              rw [hwc, if_pos (by simp), List.dropWhile_cons,
                if_neg (by rw [hwc]; simp), wordTokens_cons_nonword hwc]
        | cons d2 rest =>
          have hlen3 : rest.length ≤ n := by
            simp at hl
            omega
          have hlen2 : (d2 :: rest).length ≤ n := by
            simp at hl ⊢
            omega
          have hlen1 : (d1 :: d2 :: rest).length ≤ n := by
            simp at hl ⊢
            omega
          by_cases hpb : prevBoundary prev = true
          · rw [if_pos hpb]
            by_cases hcu : c.isUpper = true
            · have hwc := isWordChar_of_isUpper hcu
              by_cases hm2 : (d1.isDigit && d2.isDigit && nextBoundary rest) = true
              · obtain ⟨h12, hnb⟩ := (Bool.and_eq_true _ _).mp hm2
                obtain ⟨hd1, hd2⟩ := (Bool.and_eq_true _ _).mp h12
                have hwd1 := isWordChar_of_isDigit hd1
                have hwd2 := isWordChar_of_isDigit hd2
                have hj : jelScan (c :: d1 :: d2 :: rest) prev =
                    [c, d1, d2] :: jelScan rest (some d2) := by
                  conv_lhs => unfold jelScan
                  rw [if_pos (by rw [hpb, hcu]; rfl), if_pos hm2]
                rw [hj, ih rest hlen3 (some d2), prevBoundary_some, hwd2,
                  if_neg (by simp), dropWhile_self_of_nextBoundary hnb,
                  wordTokens_cons_word hwc, List.takeWhile_cons, if_pos hwd1,
                  List.takeWhile_cons, if_pos hwd2,
                  takeWhile_nil_of_nextBoundary hnb, List.dropWhile_cons,
                  if_pos hwd1, List.dropWhile_cons, if_pos hwd2,
                  dropWhile_self_of_nextBoundary hnb, List.filter_cons,
                  show isJelToken [c, d1, d2] = true from by
                    show (c.isUpper && d1.isDigit && d2.isDigit) = true
                    rw [hcu, hd1, hd2]
                    rfl]
                rfl
              · by_cases hm1 : (d1.isDigit && !isWordChar d2) = true
                · obtain ⟨hd1, hd2nw⟩ := (Bool.and_eq_true _ _).mp hm1
                  rw [Bool.not_eq_true'] at hd2nw
                  have hwd1 := isWordChar_of_isDigit hd1
                  have hj : jelScan (c :: d1 :: d2 :: rest) prev =
                      [c, d1] :: jelScan (d2 :: rest) (some d1) := by
                    conv_lhs => unfold jelScan
                    rw [if_pos (by rw [hpb, hcu]; rfl), if_neg hm2,
                      if_pos (by rw [hd1, hd2nw]; rfl)]
                  rw [hj, ih (d2 :: rest) hlen2 (some d1), prevBoundary_some,
                    hwd1, if_neg (by simp), List.dropWhile_cons,
                    if_neg (by rw [hd2nw]; simp), wordTokens_cons_word hwc,
                    List.takeWhile_cons, if_pos hwd1, List.takeWhile_cons,
                    if_neg (by rw [hd2nw]; simp), List.dropWhile_cons,
                    if_pos hwd1, List.dropWhile_cons,
                    if_neg (by rw [hd2nw]; simp), List.filter_cons,
                    show isJelToken [c, d1] = true from by
                      show (c.isUpper && d1.isDigit) = true
                      rw [hcu, hd1]
                      rfl]
                  rfl
                · have hj : jelScan (c :: d1 :: d2 :: rest) prev =
                      jelScan (d1 :: d2 :: rest) (some c) := by
                    conv_lhs => unfold jelScan
                    rw [if_pos (by rw [hpb, hcu]; rfl), if_neg hm2,
                      if_neg hm1]
                  rw [hj, ih (d1 :: d2 :: rest) hlen1 (some c),
                    prevBoundary_some, hwc, if_neg (by simp),
                    wordTokens_cons_word hwc, List.filter_cons,
                    isJelToken_fail hm2 hm1]
                  simp
            · rw [Bool.not_eq_true] at hcu
              have hj : jelScan (c :: d1 :: d2 :: rest) prev =
                  jelScan (d1 :: d2 :: rest) (some c) := by
                conv_lhs => unfold jelScan
                rw [if_neg (by rw [hcu]; simp)]
              rw [hj, ih (d1 :: d2 :: rest) hlen1 (some c), prevBoundary_some]
              by_cases hwc : isWordChar c = true
              · rw [hwc, if_neg (by simp), wordTokens_cons_word hwc,
                  List.filter_cons, isJelToken_nonupper hcu]
                simp
              · rw [Bool.not_eq_true] at hwc
                rw [hwc, if_pos (by simp), wordTokens_cons_nonword hwc]
          · rw [if_neg hpb]
            rw [Bool.not_eq_true] at hpb
            have hj : jelScan (c :: d1 :: d2 :: rest) prev =
                jelScan (d1 :: d2 :: rest) (some c) := by
              conv_lhs => unfold jelScan
              rw [if_neg (by rw [hpb]; simp)]
            rw [hj, ih (d1 :: d2 :: rest) hlen1 (some c), prevBoundary_some]
            by_cases hwc : isWordChar c = true
            · rw [hwc, if_neg (by simp)]
              conv_rhs => rw [List.dropWhile_cons, if_pos hwc]
            · rw [Bool.not_eq_true] at hwc
              rw [hwc, if_pos (by simp), List.dropWhile_cons,
                if_neg (by rw [hwc]; simp), wordTokens_cons_nonword hwc]

theorem pyUnique_go_nodup (l : List (List Char)) :
    ∀ acc : List (List Char), acc.Nodup →
    (l.foldl (fun acc f => if f ∈ acc then acc else acc ++ [f]) acc).Nodup := by
  induction l with
  | nil => intro acc h; exact h
  | cons x xs ih =>
    intro acc h
    simp only [List.foldl_cons]
    by_cases hx : x ∈ acc
    · rw [if_pos hx]
      exact ih acc h
    · rw [if_neg hx]
      apply ih
      refine List.Nodup.append h (List.nodup_singleton x) ?_
      intro a ha hax
      rw [List.mem_singleton] at hax
      subst hax
      exact hx ha

theorem extract_jel_nodup (text : List Char) :
    (extract_jel_from_text text).Nodup := by
  unfold extract_jel_from_text
  split
  · exact List.nodup_nil
  · exact pyUnique_go_nodup _ [] List.nodup_nil

theorem extract_jel_eq_tokens (text : List Char) :
    extract_jel_from_text text =
      pyUnique ((wordTokens (text.map Char.toUpper)).filter isJelToken) := by
  unfold extract_jel_from_text
  by_cases ht : text = []
  · subst ht
    rw [if_pos rfl, List.map_nil, wordTokens_nil]
    rfl
  · rw [if_neg ht,
      jelScan_eq_wordTokens (text.map Char.toUpper).length _ (Nat.le_refl _) none,
      show prevBoundary none = true from rfl, if_pos rfl]

/-- **C6.**  For every input text, the code extractor returns exactly
the distinct whole-token matches of one uppercase letter immediately
followed by one or two digits in the uppercased text, in first-seen
order with no duplicates; on the spec's example it yields
`["L13", "D2"]` (`"M99Z"` is not a bare token), and empty input — or
input with no matches — yields the empty list. -/
theorem extract_jel_whole_tokens :
    (∀ text : List Char,
      extract_jel_from_text text =
        pyUnique ((wordTokens (text.map Char.toUpper)).filter isJelToken)
      ∧ (extract_jel_from_text text).Nodup)
    ∧ extract_jel_from_text
        ("Classification: L13, D2 and something M99Z".toList) =
        [("L13".toList), ("D2".toList)]
    ∧ extract_jel_from_text [] = []
    ∧ extract_jel_from_text ("no codes here".toList) = [] :=
  ⟨fun text => ⟨extract_jel_eq_tokens text, extract_jel_nodup text⟩,
   by decide, rfl, by decide⟩

/-! ## C9: abstract reconstruction round-trip -/

theorem setFold_length (tok : List Char) (ps : List Nat) :
    ∀ ws : List (List Char),
    (ps.foldl (fun ws p => ws.set p tok) ws).length = ws.length := by
  induction ps with
  | nil => intro ws; rfl
  | cons p ps' ih =>
    intro ws
    simp only [List.foldl_cons]
    rw [ih, List.length_set]

theorem setFold_get (tok : List Char) (ps : List Nat) :
    ∀ (ws : List (List Char)) (q : Nat),
    (ps.foldl (fun ws p => ws.set p tok) ws)[q]? =
      if q ∈ ps ∧ q < ws.length then some tok else ws[q]? := by
  induction ps with
  | nil =>
    intro ws q
    simp
  | cons p ps' ih =>
    intro ws q
    simp only [List.foldl_cons]
    rw [ih (ws.set p tok) q, List.length_set]
    by_cases hq : q < ws.length
    · by_cases hmem : q ∈ ps'
      · rw [if_pos ⟨hmem, hq⟩, if_pos ⟨List.mem_cons_of_mem p hmem, hq⟩]
      · rw [if_neg (fun hc => hmem hc.1), List.getElem?_set]
        by_cases hpq : p = q
        · subst hpq
          rw [if_pos rfl, if_pos hq, if_pos ⟨List.mem_cons_self _ _, hq⟩]
        · rw [if_neg hpq,
            if_neg (fun hc => by
              rcases List.mem_cons.mp hc.1 with h1 | h2
              · exact hpq h1.symm
              · exact hmem h2)]
    · rw [if_neg (fun hc => hq hc.2), if_neg (fun hc => hq hc.2),
        List.getElem?_set]
      by_cases hpq : p = q
      · subst hpq
        rw [if_pos rfl, if_neg hq, List.getElem?_eq_none (by omega)]
      · rw [if_neg hpq]

theorem fillWords_length (ii : List (List Char × List Nat)) :
    ∀ ws : List (List Char), (fillWords ii ws).length = ws.length := by
  induction ii with
  | nil => intro ws; rfl
  | cons e rest ih =>
    intro ws
    simp only [fillWords, List.foldl_cons]
    rw [show (rest.foldl (fun ws e => e.2.foldl (fun ws p => ws.set p e.1) ws)
        (e.2.foldl (fun ws p => ws.set p e.1) ws)) =
      fillWords rest (e.2.foldl (fun ws p => ws.set p e.1) ws) from rfl]
    rw [ih, setFold_length]

theorem fillWords_get (ii : List (List Char × List Nat)) :
    ∀ (ws : List (List Char)) (q : Nat), q < ws.length →
    (fillWords ii ws)[q]? =
      match lastWriter ii q with
      | some t => some t
      | none => ws[q]? := by
  induction ii with
  | nil =>
    intro ws q _
    rfl
  | cons e rest ih =>
    intro ws q hq
    have hstep : fillWords (e :: rest) ws =
        fillWords rest (e.2.foldl (fun ws p => ws.set p e.1) ws) := rfl
    rw [hstep, ih _ q (by rw [setFold_length]; exact hq)]
    show _ = match lastWriter (e :: rest) q with
      | some t => some t
      | none => ws[q]?
    rw [show lastWriter (e :: rest) q =
      (match lastWriter rest q with
       | some t => some t
       | none => if q ∈ e.2 then some e.1 else none) from rfl]
    cases hlw : lastWriter rest q with
    | some t => rfl
    | none =>
      rw [setFold_get]
      by_cases hmem : q ∈ e.2
      · rw [if_pos ⟨hmem, hq⟩, if_pos hmem]
      · rw [if_neg (fun hc => hmem hc.1), if_neg hmem]

theorem lastWriter_none_of_count_zero (q : Nat) :
    ∀ ii : List (List Char × List Nat), posCount ii q = 0 →
    lastWriter ii q = none := by
  intro ii
  induction ii with
  | nil => intro _; rfl
  | cons e rest ih =>
    intro h
    simp only [posCount, List.map_cons, List.sum_cons] at h
    have he : e.2.count q = 0 := by omega
    have hrest : posCount rest q = 0 := by
      simp only [posCount]
      omega
    show (match lastWriter rest q with
      | some t => some t
      | none => if q ∈ e.2 then some e.1 else none) = none
    rw [ih hrest, if_neg (fun hc => by
      rw [← List.count_pos_iff] at hc
      omega)]

theorem lastWriter_unique (q : Nat) (e : List Char × List Nat) :
    ∀ ii : List (List Char × List Nat), posCount ii q = 1 →
    e ∈ ii → q ∈ e.2 → lastWriter ii q = some e.1 := by
  intro ii
  induction ii with
  | nil => intro _ hmem; simp at hmem
  | cons e' rest ih =>
    intro hcount hmem hq
    simp only [posCount, List.map_cons, List.sum_cons] at hcount
    show (match lastWriter rest q with
      | some t => some t
      | none => if q ∈ e'.2 then some e'.1 else none) = some e.1
    rcases List.mem_cons.mp hmem with he | he
    · subst he
      have hqc : 0 < e.2.count q := List.count_pos_iff.mpr hq
      have hrest : posCount rest q = 0 := by
        simp only [posCount]
        omega
      rw [lastWriter_none_of_count_zero q rest hrest, if_pos hq]
    · have hqc : 1 ≤ posCount rest q := by
        have hx : e.2.count q ∈ rest.map (fun e => e.2.count q) :=
          List.mem_map_of_mem _ he
        have h1 : 0 < e.2.count q := List.count_pos_iff.mpr hq
        have h2 := List.single_le_sum (l := rest.map (fun e => e.2.count q))
          (fun x _ => Nat.zero_le x) _ hx
        simp only [posCount]
        omega
      have he'c : e'.2.count q = 0 := by
        simp only [posCount] at hqc
        omega
      rw [ih (by simp only [posCount]; omega) he hq]

theorem foldl_max_lt (N : Nat) (ps : List Nat) :
    ∀ a, a < N → (∀ p ∈ ps, p < N) → ps.foldl max a < N := by
  induction ps with
  | nil => intro a ha _; exact ha
  | cons p ps' ih =>
    intro a ha hb
    simp only [List.foldl_cons]
    exact ih (max a p) (by
      have := hb p (List.mem_cons_self _ _)
      omega)
      (fun x hx => hb x (List.mem_cons_of_mem _ hx))

theorem le_foldl_max (ps : List Nat) :
    ∀ a, a ≤ ps.foldl max a ∧ ∀ p ∈ ps, p ≤ ps.foldl max a := by
  induction ps with
  | nil => intro a; exact ⟨Nat.le_refl a, fun p hp => by simp at hp⟩
  | cons p ps' ih =>
    intro a
    simp only [List.foldl_cons]
    obtain ⟨h1, h2⟩ := ih (max a p)
    refine ⟨Nat.le_trans (Nat.le_max_left a p) h1, ?_⟩
    intro x hx
    rcases List.mem_cons.mp hx with hx | hx
    · subst hx
      exact Nat.le_trans (Nat.le_max_right a x) h1
    · exact h2 x hx

theorem maxPosGo_mono (ii : List (List Char × List Nat)) :
    ∀ a, a ≤ ii.foldl
      (fun m e => if e.2 ≠ [] then max m (e.2.foldl max 0) else m) a := by
  induction ii with
  | nil => intro a; exact Nat.le_refl a
  | cons e rest ih =>
    intro a
    simp only [List.foldl_cons]
    refine Nat.le_trans ?_ (ih _)
    split
    · exact Nat.le_max_left _ _
    · exact Nat.le_refl a

theorem le_maxPos (ii : List (List Char × List Nat)) :
    ∀ (e : List Char × List Nat), e ∈ ii → ∀ p ∈ e.2, p ≤ maxPos ii := by
  have key : ∀ (jj : List (List Char × List Nat)) (a : Nat)
      (e : List Char × List Nat), e ∈ jj → ∀ p ∈ e.2,
      p ≤ jj.foldl (fun m e => if e.2 ≠ [] then max m (e.2.foldl max 0) else m) a := by
    intro jj
    induction jj with
    | nil => intro a e he; simp at he
    | cons e' rest ih =>
      intro a e he p hp
      simp only [List.foldl_cons]
      rcases List.mem_cons.mp he with he | he
      · subst he
        refine Nat.le_trans ?_ (maxPosGo_mono rest _)
        rw [if_pos (by
          intro hc
          rw [hc] at hp
          simp at hp)]
        exact Nat.le_trans ((le_foldl_max e.2 0).2 p hp) (Nat.le_max_right _ _)
      · exact ih _ e he p hp
  intro e he p hp
  exact key ii 0 e he p hp

theorem maxPos_lt (ii : List (List Char × List Nat)) (N : Nat) (h0 : 0 < N)
    (hb : ∀ e ∈ ii, ∀ p ∈ e.2, p < N) : maxPos ii < N := by
  have key : ∀ (jj : List (List Char × List Nat)) (a : Nat), a < N →
      (∀ e ∈ jj, ∀ p ∈ e.2, p < N) →
      jj.foldl (fun m e => if e.2 ≠ [] then max m (e.2.foldl max 0) else m) a < N := by
    intro jj
    induction jj with
    | nil => intro a ha _; exact ha
    | cons e' rest ih =>
      intro a ha hbb
      simp only [List.foldl_cons]
      refine ih _ ?_ (fun e he p hp => hbb e (List.mem_cons_of_mem _ he) p hp)
      split
      · have := foldl_max_lt N e'.2 0 h0
          (fun p hp => hbb e' (List.mem_cons_self _ _) p hp)
        omega
      · exact ha
  exact key ii 0 h0 hb

theorem exists_writer (ii : List (List Char × List Nat)) (q : Nat)
    (h : 0 < posCount ii q) : ∃ e, e ∈ ii ∧ q ∈ e.2 := by
  induction ii with
  | nil => simp [posCount] at h
  | cons e rest ih =>
    simp only [posCount, List.map_cons, List.sum_cons] at h
    by_cases hc : 0 < e.2.count q
    · exact ⟨e, List.mem_cons_self _ _, List.count_pos_iff.mp hc⟩
    · have : 0 < posCount rest q := by
        simp only [posCount]
        omega
      obtain ⟨e', he', hq'⟩ := ih this
      exact ⟨e', List.mem_cons_of_mem _ he', hq'⟩

theorem eq_of_fst_eq_of_nodup :
    ∀ (ii : List (List Char × List Nat)), (ii.map Prod.fst).Nodup →
    ∀ e, e ∈ ii → ∀ e', e' ∈ ii → e.1 = e'.1 → e = e' := by
  intro ii
  induction ii with
  | nil => intro _ e he; simp at he
  | cons x rest ih =>
    intro hnd e he e' he' hfst
    rw [List.map_cons, List.nodup_cons] at hnd
    rcases List.mem_cons.mp he with he1 | he1
    · rcases List.mem_cons.mp he' with he2 | he2
      · rw [he1, he2]
      · subst he1
        apply absurd _ hnd.1
        rw [hfst]
        exact List.mem_map_of_mem Prod.fst he2
    · rcases List.mem_cons.mp he' with he2 | he2
      · subst he2
        apply absurd _ hnd.1
        rw [← hfst]
        exact List.mem_map_of_mem Prod.fst he1
      · exact ih hnd.2 e he1 e' he2 hfst

theorem pySplitGo_chunk (w : List Char) (hw : ∀ c ∈ w, isPySpace c = false) :
    ∀ (acc l : List Char), pySplitGo acc (w ++ l) = pySplitGo (w.reverse ++ acc) l := by
  induction w with
  | nil => intro acc l; rfl
  | cons c w' ih =>
    intro acc l
    have hc : isPySpace c = false := hw c (List.mem_cons_self _ _)
    show (if isPySpace c = true then _ else pySplitGo (c :: acc) (w' ++ l)) = _
    rw [if_neg (by rw [hc]; simp),
      ih (fun x hx => hw x (List.mem_cons_of_mem _ hx)) (c :: acc) l,
      List.reverse_cons, List.append_assoc, List.singleton_append]

theorem pySplit_joinSpace :
    ∀ ws : List (List Char),
    (∀ w ∈ ws, w ≠ [] ∧ ∀ c ∈ w, isPySpace c = false) →
    pySplit (joinSpace ws) = ws := by
  intro ws
  induction ws with
  | nil => intro _; rfl
  | cons w ws' ih =>
    intro h
    obtain ⟨hw, hsp⟩ := h w (List.mem_cons_self _ _)
    cases ws' with
    | nil =>
      show pySplitGo [] (joinSpace [w]) = [w]
      rw [show joinSpace [w] = w from rfl]
      have hgo := pySplitGo_chunk w hsp [] []
      rw [List.append_nil, List.append_nil] at hgo
      rw [hgo]
      show (if w.reverse = [] then [] else [w.reverse.reverse]) = [w]
      rw [if_neg (by simp [hw]), List.reverse_reverse]
    | cons w2 ws'' =>
      show pySplitGo [] (joinSpace (w :: w2 :: ws'')) = w :: w2 :: ws''
      rw [show joinSpace (w :: w2 :: ws'') = w ++ ' ' :: joinSpace (w2 :: ws'')
        from rfl]
      have hgo := pySplitGo_chunk w hsp [] (' ' :: joinSpace (w2 :: ws''))
      rw [List.append_nil] at hgo
      rw [hgo]
      show (if isPySpace ' ' = true then
          (if w.reverse = [] then pySplitGo [] (joinSpace (w2 :: ws''))
           else w.reverse.reverse :: pySplitGo [] (joinSpace (w2 :: ws'')))
        else pySplitGo (' ' :: w.reverse) (joinSpace (w2 :: ws''))) = _
      rw [if_pos (by decide), if_neg (by simp [hw]), List.reverse_reverse]
      rw [show pySplitGo [] (joinSpace (w2 :: ws'')) =
        pySplit (joinSpace (w2 :: ws'')) from rfl,
        ih (fun x hx => h x (List.mem_cons_of_mem _ hx))]

theorem fillWords_id_of_no_positions (ii : List (List Char × List Nat))
    (h : ∀ e ∈ ii, e.2 = []) : ∀ ws, fillWords ii ws = ws := by
  induction ii with
  | nil => intro ws; rfl
  | cons e rest ih =>
    intro ws
    have he : e.2 = [] := h e (List.mem_cons_self _ _)
    show fillWords rest (e.2.foldl (fun ws p => ws.set p e.1) ws) = ws
    rw [he]
    exact ih (fun x hx => h x (List.mem_cons_of_mem _ hx)) ws

theorem maxPos_of_no_positions (ii : List (List Char × List Nat))
    (h : ∀ e ∈ ii, e.2 = []) : maxPos ii = 0 := by
  have key : ∀ (jj : List (List Char × List Nat)), (∀ e ∈ jj, e.2 = []) →
      ∀ a, jj.foldl
        (fun m e => if e.2 ≠ [] then max m (e.2.foldl max 0) else m) a = a := by
    intro jj
    induction jj with
    | nil => intro _ a; rfl
    | cons e rest ih =>
      intro hh a
      simp only [List.foldl_cons]
      rw [if_neg (by simp [hh e (List.mem_cons_self _ _)])]
      exact ih (fun x hx => hh x (List.mem_cons_of_mem _ hx)) a
  exact key ii h 0

/-- **C9, counterexample.**  The claim quantifies over *every* token map
covering `0..N-1` exactly once.  The map `{"a b": [0]}` covers `0..0`
exactly once, yet the reconstruction is the text `"a b"`, whose
whitespace re-split is `["a", "b"]`: word 0 of the split is `"a"`, not
the original token `"a b"`, so the token-to-position mapping is not
recovered. -/
theorem reconstruct_roundtrip_counterexample :
    (∀ p, p < 1 → posCount [(("a b".toList), [0])] p = 1)
    ∧ (∀ e ∈ [(("a b".toList), [0])], ∀ p ∈ e.2, p < 1)
    ∧ (("a b".toList), [0]) ∈ [(("a b".toList), [0])]
    ∧ (0 : Nat) ∈ [0]
    ∧ (pySplit (reconstruct_abstract [(("a b".toList), [0])]))[0]? ≠
        some ("a b".toList) := by decide

/-- **C9, amended.**  For every inverted index whose position lists
cover `0..N-1` exactly once, whose keys are distinct (as `dict` keys
are), and whose tokens are non-empty and contain no whitespace,
reconstructing the text and re-splitting it on whitespace recovers the
token-to-position mapping: word `p` of the split is token `t` exactly
when `p` is in `t`'s position list. -/
theorem reconstruct_abstract_roundtrip (ii : List (List Char × List Nat))
    (N : Nat)
    (hcover : ∀ p, p < N → posCount ii p = 1)
    (hbound : ∀ e ∈ ii, ∀ p ∈ e.2, p < N)
    (hkeys : (ii.map Prod.fst).Nodup)
    (htok : ∀ e ∈ ii, e.1 ≠ [] ∧ ∀ c ∈ e.1, isPySpace c = false) :
    ∀ e ∈ ii, ∀ p : Nat,
      ((pySplit (reconstruct_abstract ii))[p]? = some e.1 ↔ p ∈ e.2) := by
  by_cases hN : N = 0
  · subst hN
    have hempty : ∀ e ∈ ii, e.2 = [] := by
      intro e he
      cases hp : e.2 with
      | nil => rfl
      | cons p ps =>
        have := hbound e he p (by rw [hp]; exact List.mem_cons_self _ _)
        omega
    have hrec : reconstruct_abstract ii = [] := by
      unfold reconstruct_abstract
      by_cases hii : ii = []
      · rw [if_pos hii]
      · rw [if_neg hii]
        rw [fillWords_id_of_no_positions ii hempty, maxPos_of_no_positions ii hempty]
        show joinSpace (List.filter _ [[]]) = []
        rfl
    intro e he p
    rw [hrec]
    show (pySplit [])[p]? = some e.1 ↔ p ∈ e.2
    rw [hempty e he]
    constructor
    · intro hp
      rw [show pySplit [] = [] from rfl] at hp
      simp at hp
    · intro hp
      simp at hp
  · have h0 : 0 < N := by omega
    have hii : ii ≠ [] := by
      intro hc
      subst hc
      have := hcover 0 h0
      simp [posCount] at this
    have hmlt : maxPos ii < N := maxPos_lt ii N h0 hbound
    have hmge : N - 1 ≤ maxPos ii := by
      obtain ⟨e, he, hpe⟩ := exists_writer ii (N - 1)
        (by rw [hcover (N - 1) (by omega)]; omega)
      exact le_maxPos ii e he (N - 1) hpe
    have hlen : maxPos ii + 1 = N := by omega
    have hws0len : (List.replicate (maxPos ii + 1) ([] : List Char)).length = N := by
      rw [List.length_replicate, hlen]
    have hwlen :
        (fillWords ii (List.replicate (maxPos ii + 1) [])).length = N := by
      rw [fillWords_length, hws0len]
    have hget : ∀ q, q < N → ∃ e, e ∈ ii ∧ q ∈ e.2 ∧
        (fillWords ii (List.replicate (maxPos ii + 1) []))[q]? = some e.1 := by
      intro q hq
      obtain ⟨e, he, hqe⟩ := exists_writer ii q (by rw [hcover q hq]; omega)
      refine ⟨e, he, hqe, ?_⟩
      rw [fillWords_get ii _ q (by rw [hws0len]; exact hq),
        lastWriter_unique q e ii (hcover q hq) he hqe]
    have hwprop : ∀ w ∈ fillWords ii (List.replicate (maxPos ii + 1) []),
        w ≠ [] ∧ ∀ c ∈ w, isPySpace c = false := by
      intro w hwmem
      obtain ⟨q, hq⟩ := List.mem_iff_getElem?.mp hwmem
      have hqN : q < N := by
        by_contra hge
        rw [List.getElem?_eq_none (by rw [hwlen]; omega)] at hq
        simp at hq
      obtain ⟨e, he, _, hwe⟩ := hget q hqN
      rw [hq] at hwe
      injection hwe with hwe
      rw [hwe]
      exact htok e he
    have hfilt : (fillWords ii (List.replicate (maxPos ii + 1) [])).filter
        (· ≠ []) = fillWords ii (List.replicate (maxPos ii + 1) []) := by
      rw [List.filter_eq_self]
      intro w hw
      simpa using (hwprop w hw).1
    have hrec : reconstruct_abstract ii =
        joinSpace (fillWords ii (List.replicate (maxPos ii + 1) [])) := by
      unfold reconstruct_abstract
      rw [if_neg hii]
      show joinSpace _ = _
      rw [hfilt]
    have hsplit : pySplit (reconstruct_abstract ii) =
        fillWords ii (List.replicate (maxPos ii + 1) []) := by
      rw [hrec, pySplit_joinSpace _ hwprop]
    intro e he p
    rw [hsplit]
    constructor
    · intro hp
      have hpN : p < N := by
        by_contra hge
        rw [List.getElem?_eq_none (by rw [hwlen]; omega)] at hp
        simp at hp
      obtain ⟨e', he', hpe', hwe'⟩ := hget p hpN
      rw [hwe'] at hp
      injection hp with hp
      rw [eq_of_fst_eq_of_nodup ii hkeys e' he' e he hp] at hpe'
      exact hpe'
    · intro hp
      have hpN : p < N := hbound e he p hp
      rw [fillWords_get ii _ p (by rw [hws0len]; exact hpN),
        lastWriter_unique p e ii (hcover p hpN) he hp]

/-- Witness for C9 at a concrete two-token index. -/
theorem reconstruct_abstract_roundtrip_witness :
    ((pySplit (reconstruct_abstract
        [(("Hello".toList), [0]), (("world".toList), [1])]))[1]? =
      some ("world".toList)) ↔ (1 : Nat) ∈ [1] :=
  reconstruct_abstract_roundtrip
    [(("Hello".toList), [0]), (("world".toList), [1])] 2
    (by decide) (by decide) (by decide) (by decide)
    (("world".toList), [1]) (by decide) 1

/-! ## C3: algebraic properties of DOI normalization -/

theorem isPySpace_eq_false_of_toNat {c : Char} (h1 : 33 ≤ c.toNat) :
    isPySpace c = false := by
  unfold isPySpace
  simp only [Bool.or_eq_false_iff, decide_eq_false_iff_not]
  refine ⟨⟨⟨⟨⟨?_, ?_⟩, ?_⟩, ?_⟩, ?_⟩, ?_⟩ <;>
    (intro h; subst h; exact absurd h1 (by decide))

theorem isPySpace_toLower (c : Char) :
    isPySpace (Char.toLower c) = isPySpace c := by
  unfold Char.toLower
  dsimp only
  split
  · rename_i h
    rw [isPySpace_eq_false_of_toNat
        (by rw [ofNat_add32_toNat c.toNat (by omega) (by omega)]; omega),
      isPySpace_eq_false_of_toNat (by omega)]
  · rfl

theorem pyLower_append (a b : List Char) :
    pyLower (a ++ b) = pyLower a ++ pyLower b := by
  unfold pyLower
  rw [List.map_append]

theorem pyLower_length (l : List Char) : (pyLower l).length = l.length := by
  unfold pyLower
  rw [List.length_map]

theorem lstrip_cons_nonspace {c : Char} {cs : List Char}
    (h : isPySpace c = false) : lstrip (c :: cs) = c :: cs := by
  unfold lstrip
  rw [List.dropWhile_cons, if_neg (by rw [h]; simp)]

theorem rstrip_append (a b : List Char) :
    rstrip (a ++ b) = if rstrip b = [] then rstrip a else a ++ rstrip b := by
  by_cases h : rstrip b = []
  · rw [if_pos h]
    have h' : (b.reverse.dropWhile isPySpace).isEmpty = true := by
      rw [List.isEmpty_iff]
      exact List.reverse_eq_nil_iff.mp h
    show ((a ++ b).reverse.dropWhile isPySpace).reverse = rstrip a
    rw [List.reverse_append, List.dropWhile_append, if_pos h']
    rfl
  · rw [if_neg h]
    have h' : ¬(b.reverse.dropWhile isPySpace).isEmpty = true := by
      rw [List.isEmpty_iff]
      intro hc
      apply h
      show (b.reverse.dropWhile isPySpace).reverse = []
      rw [hc]
      rfl
    show ((a ++ b).reverse.dropWhile isPySpace).reverse = a ++ rstrip b
    rw [List.reverse_append, List.dropWhile_append, if_neg h',
      List.reverse_append, List.reverse_reverse]
    rfl

theorem rstrip_all_space {l : List Char} (h : ∀ c ∈ l, isPySpace c = true) :
    rstrip l = [] := by
  unfold rstrip
  rw [List.dropWhile_eq_nil_iff.mpr (fun c hc => h c (List.mem_reverse.mp hc))]
  rfl

theorem lstrip_append_space {a : List Char} (b : List Char)
    (h : ∀ c ∈ a, isPySpace c = true) : lstrip (a ++ b) = lstrip b := by
  unfold lstrip
  exact List.dropWhile_append_of_pos h

theorem pyStrip_append_solid (c : Char) (a' d : List Char)
    (hc : isPySpace c = false) (hra : rstrip (c :: a') = c :: a') :
    pyStrip ((c :: a') ++ d) = (c :: a') ++ rstrip d := by
  unfold pyStrip
  rw [List.cons_append, lstrip_cons_nonspace hc, ← List.cons_append,
    rstrip_append]
  by_cases hd : rstrip d = []
  · rw [if_pos hd, hra, hd, List.append_nil]
  · rw [if_neg hd]

theorem rstrip_eq_ite (d : List Char) :
    rstrip d = if pyStrip d = [] then []
      else d.takeWhile isPySpace ++ pyStrip d := by
  have hdec : d = d.takeWhile isPySpace ++ d.dropWhile isPySpace :=
    (List.takeWhile_append_dropWhile isPySpace d).symm
  have htw : ∀ c ∈ d.takeWhile isPySpace, isPySpace c = true :=
    fun c hc => List.mem_takeWhile_imp hc
  conv_lhs => rw [hdec]
  rw [rstrip_append]
  show _ = if rstrip (List.dropWhile isPySpace d) = [] then []
    else List.takeWhile isPySpace d ++ rstrip (List.dropWhile isPySpace d)
  by_cases h : rstrip (d.dropWhile isPySpace) = []
  · rw [if_pos h, if_pos h, rstrip_all_space htw]
  · rw [if_neg h, if_neg h]

theorem dropWhile_idem (p : Char → Bool) :
    ∀ u : List Char, (u.dropWhile p).dropWhile p = u.dropWhile p := by
  intro u
  induction u with
  | nil => rfl
  | cons c cs ih =>
    by_cases hc : p c = true
    · rw [List.dropWhile_cons, if_pos hc]
      exact ih
    · rw [List.dropWhile_cons, if_neg hc, List.dropWhile_cons, if_neg hc]

theorem rstrip_cons_nonspace {c : Char} (cs : List Char)
    (hc : isPySpace c = false) : rstrip (c :: cs) = c :: rstrip cs := by
  have h1 : rstrip [c] = [c] := by
    unfold rstrip
    rw [show ([c] : List Char).reverse = [c] from rfl, List.dropWhile_cons,
      if_neg (by rw [hc]; simp)]
    rfl
  rw [show c :: cs = [c] ++ cs from rfl, rstrip_append]
  by_cases hd : rstrip cs = []
  · rw [if_pos hd, hd, h1]
  · rw [if_neg hd]
    rfl

theorem dropWhile_head_false {p : Char → Bool} :
    ∀ {l : List Char} {c : Char} {cs : List Char},
    l.dropWhile p = c :: cs → p c = false := by
  intro l
  induction l with
  | nil => intro c cs h; simp at h
  | cons x xs ih =>
    intro c cs h
    by_cases hx : p x = true
    · rw [List.dropWhile_cons, if_pos hx] at h
      exact ih h
    · rw [List.dropWhile_cons, if_neg hx] at h
      injection h with h1 _
      rw [← h1]
      exact Bool.not_eq_true _ ▸ Bool.of_not_eq_true hx

theorem rstrip_idem (y : List Char) : rstrip (rstrip y) = rstrip y := by
  unfold rstrip
  rw [List.reverse_reverse, dropWhile_idem]

theorem pyStrip_idem (l : List Char) : pyStrip (pyStrip l) = pyStrip l := by
  show pyStrip (rstrip (lstrip l)) = rstrip (lstrip l)
  cases hl : lstrip l with
  | nil =>
    rw [show rstrip [] = [] from rfl]
    rfl
  | cons c cs =>
    have hc : isPySpace c = false := dropWhile_head_false hl
    rw [rstrip_cons_nonspace cs hc]
    show rstrip (lstrip (c :: rstrip cs)) = _
    rw [lstrip_cons_nonspace hc, rstrip_cons_nonspace _ hc, rstrip_idem]

theorem pyLower_pyStrip (l : List Char) :
    pyLower (pyStrip l) = pyStrip (pyLower l) := by
  have hsp : isPySpace ∘ Char.toLower = isPySpace := by
    funext c
    exact isPySpace_toLower c
  have hmd : ∀ u : List Char,
      (u.dropWhile isPySpace).map Char.toLower =
        (u.map Char.toLower).dropWhile isPySpace := by
    intro u
    rw [List.dropWhile_map, hsp]
  show ((List.dropWhile isPySpace
      (List.dropWhile isPySpace l).reverse).reverse).map Char.toLower = _
  rw [List.map_reverse, hmd, List.map_reverse, hmd]
  rfl

theorem rstrip_decomp (l : List Char) :
    ∃ w, (∀ c ∈ w, isPySpace c = true) ∧ l = rstrip l ++ w := by
  refine ⟨(l.reverse.takeWhile isPySpace).reverse, ?_, ?_⟩
  · intro c hc
    rw [List.mem_reverse] at hc
    exact List.mem_takeWhile_imp hc
  · show l = rstrip l ++ _
    unfold rstrip
    rw [← List.reverse_append, List.takeWhile_append_dropWhile,
      List.reverse_reverse]

theorem leadMatch_append {p a : List Char} (b : List Char)
    (h : leadMatch p a = true) : leadMatch p (a ++ b) = true := by
  induction p generalizing a with
  | nil => rfl
  | cons x ps ih =>
    cases a with
    | nil => simp [leadMatch] at h
    | cons c cs =>
      simp only [leadMatch, Bool.and_eq_true] at h ⊢
      exact ⟨h.1, ih h.2⟩

theorem containsSub_of_leadMatch_drop {p : List Char} :
    ∀ (m : Nat) (l : List Char), leadMatch p (l.drop m) = true →
    containsSub p l = true := by
  intro m
  induction m with
  | zero =>
    intro l h
    cases l with
    | nil => exact h
    | cons c cs =>
      show (leadMatch p (c :: cs) || containsSub p cs) = true
      rw [List.drop_zero] at h
      rw [h]
      rfl
  | succ m' ih =>
    intro l h
    cases l with
    | nil => exact h
    | cons c cs =>
      show (leadMatch p (c :: cs) || containsSub p cs) = true
      rw [show (c :: cs).drop (m' + 1) = cs.drop m' from rfl] at h
      rw [ih cs h, Bool.or_true]

theorem containsSub_append_left {p a : List Char} (b : List Char)
    (h : containsSub p a = true) : containsSub p (a ++ b) = true := by
  induction a with
  | nil =>
    cases p with
    | nil =>
      cases b with
      | nil => exact h
      | cons x xs =>
        show (leadMatch [] (x :: xs) || containsSub [] xs) = true
        rfl
    | cons y ys => simp [containsSub, leadMatch] at h
  | cons c cs ih =>
    show (leadMatch p ((c :: cs) ++ b) || containsSub p (cs ++ b)) = true
    rcases Bool.or_eq_true _ _ |>.mp h with h1 | h2
    · rw [show (c :: cs) ++ b = (c :: cs) ++ b from rfl, leadMatch_append b h1]
      rfl
    · rw [ih h2, Bool.or_true]

theorem containsSub_cons_false {p : List Char} {c : Char} {cs : List Char}
    (h : containsSub p (c :: cs) = false) : containsSub p cs = false := by
  by_contra hc
  rw [Bool.not_eq_false] at hc
  have : containsSub p (c :: cs) = true := by
    show (leadMatch p (c :: cs) || containsSub p cs) = true
    rw [hc, Bool.or_true]
  rw [this] at h
  exact absurd h (by simp)

/-- A prefix of a `doi.org/`-free string is `doi.org/`-free. -/
theorem containsSub_rstrip_false {pat d : List Char}
    (h : containsSub pat (pyLower d) = false) :
    containsSub pat (pyLower (rstrip d)) = false := by
  obtain ⟨w, _, hw⟩ := rstrip_decomp d
  by_contra hc
  rw [Bool.not_eq_false] at hc
  have : containsSub pat (pyLower d) = true := by
    rw [hw, pyLower_append]
    exact containsSub_append_left _ hc
  rw [this] at h
  exact absurd h (by simp)

theorem matchDoiUrlLen_contains {l : List Char} {k : Nat}
    (h : matchDoiUrlLen l = some k) :
    containsSub (("doi.org/".toList)) (pyLower l) = true := by
  have hpat : pyLower ("doi.org/".toList) = ("doi.org/".toList) := by decide
  have hdrop : ∀ m : Nat, List.drop m (pyLower l) = pyLower (l.drop m) := by
    intro m
    unfold pyLower
    rw [List.map_drop]
  have key : ∀ (n : Nat) (m : Nat), matchDoiTail n (l.drop m) = some k →
      containsSub (("doi.org/".toList)) (pyLower l) = true := by
    intro n m hm
    unfold matchDoiTail at hm
    split at hm
    · split at hm
      · rename_i hci
        unfold ciLead at hci
        rw [List.drop_drop, hpat] at hci
        apply containsSub_of_leadMatch_drop (m + 3)
        rw [hdrop]
        exact hci
      · exact absurd hm (by simp)
    · split at hm
      · rename_i hci
        unfold ciLead at hci
        rw [hpat] at hci
        apply containsSub_of_leadMatch_drop m
        rw [hdrop]
        exact hci
      · exact absurd hm (by simp)
  unfold matchDoiUrlLen at h
  split at h
  · exact key 8 8 h
  · split at h
    · exact key 7 7 h
    · exact absurd h (by simp)

theorem subDoiUrlGo_id {l : List Char}
    (h : containsSub (("doi.org/".toList)) (pyLower l) = false) :
    ∀ fuel, subDoiUrlGo fuel l = l := by
  induction l with
  | nil => intro fuel; cases fuel <;> rfl
  | cons c cs ih =>
    intro fuel
    cases fuel with
    | zero => rfl
    | succ f =>
      show (match matchDoiUrlLen (c :: cs) with
        | some k => subDoiUrlGo f ((c :: cs).drop k)
        | none => c :: subDoiUrlGo f cs) = c :: cs
      cases hm : matchDoiUrlLen (c :: cs) with
      | some k =>
        have := matchDoiUrlLen_contains hm
        rw [this] at h
        exact absurd h (by simp)
      | none =>
        rw [ih (containsSub_cons_false (by
          show containsSub _ (Char.toLower c :: pyLower cs) = false
          exact h)) f]

theorem subDoiUrl_strip_head (pre t : List Char) (c : Char) (a' : List Char)
    (hpre : pre = c :: a')
    (hm : matchDoiUrlLen (pre ++ t) = some pre.length)
    (hnc : containsSub (("doi.org/".toList)) (pyLower t) = false) :
    subDoiUrl (pre ++ t) = t := by
  subst hpre
  show subDoiUrlGo ((c :: a') ++ t).length ((c :: a') ++ t) = t
  rw [show ((c :: a') ++ t).length = (a' ++ t).length + 1 from by
    rw [List.cons_append, List.length_cons]]
  show (match matchDoiUrlLen ((c :: a') ++ t) with
    | some k => subDoiUrlGo (a' ++ t).length (((c :: a') ++ t).drop k)
    | none => c :: subDoiUrlGo (a' ++ t).length (a' ++ t)) = t
  rw [hm]
  dsimp only
  rw [show c :: a' ++ t = (c :: a') ++ t from rfl, List.drop_left]
  exact subDoiUrlGo_id hnc _

theorem replaceDoiLabel_cons_ne {c : Char} (cs : List Char) (hc : c ≠ 'd') :
    replaceDoiLabel (c :: cs) = c :: replaceDoiLabel cs := by
  conv_lhs => unfold replaceDoiLabel
  split
  · rename_i heq
    injection heq with h1 _
    exact absurd h1 hc
  · rename_i c' cs' heq
    injection heq with h1 h2
    rw [h1, h2]
  · rename_i heq
    exact absurd heq (by simp)

theorem replaceDoiLabel_space_append {ws : List Char} (u : List Char)
    (h : ∀ c ∈ ws, isPySpace c = true) :
    replaceDoiLabel (ws ++ u) = ws ++ replaceDoiLabel u := by
  induction ws with
  | nil => rfl
  | cons c ws' ih =>
    have hc : c ≠ 'd' := by
      intro hcd
      have hsp := h c (List.mem_cons_self _ _)
      rw [hcd] at hsp
      exact absurd hsp (by decide)
    rw [List.cons_append, replaceDoiLabel_cons_ne _ hc,
      ih (fun x hx => h x (List.mem_cons_of_mem _ hx)), List.cons_append]

theorem replaceDoiLabel_id :
    ∀ n (x : List Char), x.length ≤ n →
    containsSub (("doi:".toList)) (pyLower x) = false → replaceDoiLabel x = x := by
  intro n
  induction n with
  | zero =>
    intro x hx _
    have : x = [] := by
      cases x with
      | nil => rfl
      | cons a as => simp at hx
    rw [this]
    rfl
  | succ n ih =>
    intro x hx h
    conv_lhs => unfold replaceDoiLabel
    split
    · rename_i rest
      exact absurd h (by
        show ¬((leadMatch (("doi:".toList))
          (pyLower ('d' :: 'o' :: 'i' :: ':' :: rest)) ||
            containsSub (("doi:".toList)) (pyLower ('o' :: 'i' :: ':' :: rest)))
          = false)
        rw [show leadMatch (("doi:".toList))
          (pyLower ('d' :: 'o' :: 'i' :: ':' :: rest)) = true from rfl]
        simp)
    · rename_i c cs hne
      rw [ih cs (by simp at hx; omega)
        (containsSub_cons_false (by
          show containsSub _ (Char.toLower c :: pyLower cs) = false
          exact h))]
    · rfl

theorem ne_true_of_eq_false {b : Bool} (h : b = false) : ¬b = true := by
  rw [h]
  simp

theorem append_ne_nil_left {a : List Char} (b : List Char) (ha : a ≠ []) :
    a ++ b ≠ [] := by
  intro h
  rw [List.append_eq_nil] at h
  exact ha h.1

theorem ciLead_pyLower (pat l : List Char) :
    ciLead pat (pyLower l) = ciLead pat l := by
  unfold ciLead
  rw [pyLower_pyLower]

theorem pyLower_drop (l : List Char) (m : Nat) :
    List.drop m (pyLower l) = pyLower (l.drop m) := by
  unfold pyLower
  rw [List.map_drop]

theorem matchDoiTail_pyLower (n : Nat) (r : List Char) :
    matchDoiTail n (pyLower r) = matchDoiTail n r := by
  unfold matchDoiTail
  rw [ciLead_pyLower, pyLower_drop, ciLead_pyLower, ciLead_pyLower]

theorem matchDoiUrlLen_pyLower (l : List Char) :
    matchDoiUrlLen (pyLower l) = matchDoiUrlLen l := by
  unfold matchDoiUrlLen
  simp only [ciLead_pyLower, pyLower_drop, matchDoiTail_pyLower]

theorem subDoiUrlGo_lower :
    ∀ (fuel : Nat) (l : List Char),
    pyLower (subDoiUrlGo fuel l) = subDoiUrlGo fuel (pyLower l) := by
  intro fuel
  induction fuel with
  | zero =>
    intro l
    cases l with
    | nil => rfl
    | cons c cs => rfl
  | succ fuel ih =>
    intro l
    cases l with
    | nil => rfl
    | cons c cs =>
      have hm : matchDoiUrlLen (pyLower (c :: cs)) = matchDoiUrlLen (c :: cs) :=
        matchDoiUrlLen_pyLower (c :: cs)
      cases hmm : matchDoiUrlLen (c :: cs) with
      | none =>
        have h2 : subDoiUrlGo (fuel + 1) (c :: cs) = c :: subDoiUrlGo fuel cs := by
          conv_lhs => unfold subDoiUrlGo
          rw [hmm]
        have h3 : subDoiUrlGo (fuel + 1) (Char.toLower c :: pyLower cs)
            = Char.toLower c :: subDoiUrlGo fuel (pyLower cs) := by
          conv_lhs => unfold subDoiUrlGo
          rw [show matchDoiUrlLen (Char.toLower c :: pyLower cs) = none from
            hm.trans hmm]
        show pyLower (subDoiUrlGo (fuel + 1) (c :: cs))
          = subDoiUrlGo (fuel + 1) (Char.toLower c :: pyLower cs)
        rw [h2, h3]
        show Char.toLower c :: pyLower (subDoiUrlGo fuel cs) = _
        rw [ih]
      | some k =>
        have h2 : subDoiUrlGo (fuel + 1) (c :: cs)
            = subDoiUrlGo fuel ((c :: cs).drop k) := by
          conv_lhs => unfold subDoiUrlGo
          rw [hmm]
        have h3 : subDoiUrlGo (fuel + 1) (Char.toLower c :: pyLower cs)
            = subDoiUrlGo fuel ((Char.toLower c :: pyLower cs).drop k) := by
          conv_lhs => unfold subDoiUrlGo
          rw [show matchDoiUrlLen (Char.toLower c :: pyLower cs) = some k from
            hm.trans hmm]
        show pyLower (subDoiUrlGo (fuel + 1) (c :: cs))
          = subDoiUrlGo (fuel + 1) (Char.toLower c :: pyLower cs)
        rw [h2, h3, ih,
          show (Char.toLower c :: pyLower cs) = pyLower (c :: cs) from rfl,
          pyLower_drop]

theorem subDoiUrl_lower (l : List Char) :
    pyLower (subDoiUrl l) = subDoiUrl (pyLower l) := by
  unfold subDoiUrl
  rw [pyLower_length, subDoiUrlGo_lower]

theorem strip_replace_rstrip (d : List Char) :
    pyStrip (replaceDoiLabel (rstrip d)) = pyStrip (replaceDoiLabel (pyStrip d)) := by
  rw [rstrip_eq_ite d]
  by_cases h : pyStrip d = []
  · rw [if_pos h, h]
  · rw [if_neg h,
      replaceDoiLabel_space_append (pyStrip d)
        (fun c hc => List.mem_takeWhile_imp hc)]
    show pyStrip (d.takeWhile isPySpace ++ replaceDoiLabel (pyStrip d)) = _
    unfold pyStrip
    rw [lstrip_append_space _ (fun c hc => List.mem_takeWhile_imp hc)]

theorem normalize_doi_eval (r : List Char) (hr : r ≠ []) :
    normalize_doi (some r)
      = if normCore r = [] then none else some (normCore r) := by
  have h1 : normalize_doi (some r)
      = (if r = [] then none
         else if normCore r = [] then none else some (normCore r)) := rfl
  rw [h1, if_neg hr]

theorem normCore_doiLabel (d : List Char)
    (hb : ciLead (("http".toList)) (pyStrip d) = false) :
    normCore ((("doi:".toList)) ++ d) = normCore d := by
  unfold normCore
  rw [show pyStrip ((("doi:".toList)) ++ d) = (("doi:".toList)) ++ rstrip d from
    pyStrip_append_solid 'd' (("oi:".toList)) d (by decide) (by decide)]
  rw [if_neg (ne_true_of_eq_false (show
    ciLead (("http".toList)) ((("doi:".toList)) ++ rstrip d) = false from rfl))]
  rw [show replaceDoiLabel ((("doi:".toList)) ++ rstrip d)
    = replaceDoiLabel (rstrip d) from rfl]
  rw [strip_replace_rstrip d, if_neg (ne_true_of_eq_false hb)]

theorem normCore_urlPrefix (c : Char) (a' d : List Char)
    (hc : isPySpace c = false)
    (hra : rstrip (c :: a') = c :: a')
    (hm : matchDoiUrlLen ((c :: a') ++ rstrip d) = some (c :: a').length)
    (hci : ciLead (("http".toList)) ((c :: a') ++ rstrip d) = true)
    (hb : ciLead (("http".toList)) (pyStrip d) = false)
    (hnc : containsSub (("doi.org/".toList)) (pyLower d) = false) :
    normCore ((c :: a') ++ d) = normCore d := by
  unfold normCore
  rw [pyStrip_append_solid c a' d hc hra]
  rw [if_pos hci]
  rw [subDoiUrl_strip_head (c :: a') (rstrip d) c a' rfl hm
    (containsSub_rstrip_false hnc)]
  rw [strip_replace_rstrip d, if_neg (ne_true_of_eq_false hb)]

theorem c3_url_case1 (d : List Char) (hd : d ≠ [])
    (hb : ciLead (("http".toList)) (pyStrip d) = false)
    (hnc : containsSub (("doi.org/".toList)) (pyLower d) = false) :
    normalize_doi (some ((("https://doi.org/".toList)) ++ d))
      = normalize_doi (some d) := by
  rw [normalize_doi_eval _ (append_ne_nil_left d (by decide)),
    normalize_doi_eval d hd,
    show normCore ((("https://doi.org/".toList)) ++ d) = normCore d from
      normCore_urlPrefix 'h' (("ttps://doi.org/".toList)) d (by decide)
        (by decide) rfl rfl hb hnc]

theorem c3_url_case2 (d : List Char) (hd : d ≠ [])
    (hb : ciLead (("http".toList)) (pyStrip d) = false)
    (hnc : containsSub (("doi.org/".toList)) (pyLower d) = false) :
    normalize_doi (some ((("http://doi.org/".toList)) ++ d))
      = normalize_doi (some d) := by
  rw [normalize_doi_eval _ (append_ne_nil_left d (by decide)),
    normalize_doi_eval d hd,
    show normCore ((("http://doi.org/".toList)) ++ d) = normCore d from
      normCore_urlPrefix 'h' (("ttp://doi.org/".toList)) d (by decide)
        (by decide) rfl rfl hb hnc]

theorem c3_url_case3 (d : List Char) (hd : d ≠ [])
    (hb : ciLead (("http".toList)) (pyStrip d) = false)
    (hnc : containsSub (("doi.org/".toList)) (pyLower d) = false) :
    normalize_doi (some ((("https://dx.doi.org/".toList)) ++ d))
      = normalize_doi (some d) := by
  rw [normalize_doi_eval _ (append_ne_nil_left d (by decide)),
    normalize_doi_eval d hd,
    show normCore ((("https://dx.doi.org/".toList)) ++ d) = normCore d from
      normCore_urlPrefix 'h' (("ttps://dx.doi.org/".toList)) d (by decide)
        (by decide) rfl rfl hb hnc]

theorem c3_url_case4 (d : List Char) (hd : d ≠ [])
    (hb : ciLead (("http".toList)) (pyStrip d) = false)
    (hnc : containsSub (("doi.org/".toList)) (pyLower d) = false) :
    normalize_doi (some ((("http://dx.doi.org/".toList)) ++ d))
      = normalize_doi (some d) := by
  rw [normalize_doi_eval _ (append_ne_nil_left d (by decide)),
    normalize_doi_eval d hd,
    show normCore ((("http://dx.doi.org/".toList)) ++ d) = normCore d from
      normCore_urlPrefix 'h' (("ttp://dx.doi.org/".toList)) d (by decide)
        (by decide) rfl rfl hb hnc]

theorem c3_case_insensitive (d e : List Char) (hle : pyLower e = pyLower d)
    (hnd : containsSub (("doi:".toList))
      (pyLower (if ciLead (("http".toList)) (pyStrip d) = true
        then subDoiUrl (pyStrip d) else pyStrip d)) = false) :
    normalize_doi (some e) = normalize_doi (some d) := by
  by_cases hd : d = []
  · have he : e = [] := by
      have hl := congrArg List.length hle
      rw [pyLower_length, pyLower_length, hd] at hl
      exact List.eq_nil_of_length_eq_zero hl
    rw [hd, he]
  · have he : e ≠ [] := by
      intro hee
      have hl := congrArg List.length hle
      rw [pyLower_length, pyLower_length, hee] at hl
      exact hd (List.eq_nil_of_length_eq_zero hl.symm)
    have hbr : ciLead (("http".toList)) (pyStrip e)
        = ciLead (("http".toList)) (pyStrip d) := by
      unfold ciLead
      rw [pyLower_pyStrip, hle, ← pyLower_pyStrip]
    have hXl : pyLower (if ciLead (("http".toList)) (pyStrip e) = true
          then subDoiUrl (pyStrip e) else pyStrip e)
        = pyLower (if ciLead (("http".toList)) (pyStrip d) = true
          then subDoiUrl (pyStrip d) else pyStrip d) := by
      rw [hbr]
      by_cases hcb : ciLead (("http".toList)) (pyStrip d) = true
      · rw [if_pos hcb, if_pos hcb, subDoiUrl_lower, subDoiUrl_lower,
          pyLower_pyStrip, hle, ← pyLower_pyStrip]
      · rw [if_neg hcb, if_neg hcb, pyLower_pyStrip, hle, ← pyLower_pyStrip]
    have hXe : containsSub (("doi:".toList))
        (pyLower (if ciLead (("http".toList)) (pyStrip e) = true
          then subDoiUrl (pyStrip e) else pyStrip e)) = false := by
      rw [hXl]
      exact hnd
    have hre := replaceDoiLabel_id
      (if ciLead (("http".toList)) (pyStrip e) = true
        then subDoiUrl (pyStrip e) else pyStrip e).length _ le_rfl hXe
    have hrd := replaceDoiLabel_id
      (if ciLead (("http".toList)) (pyStrip d) = true
        then subDoiUrl (pyStrip d) else pyStrip d).length _ le_rfl hnd
    have hcore : normCore e = normCore d := by
      unfold normCore
      rw [hre, hrd, pyLower_pyStrip, pyLower_pyStrip, hXl]
    rw [normalize_doi_eval e he, normalize_doi_eval d hd, hcore]

theorem c3_idempotent (raw : Option (List Char)) (o : List Char)
    (h : normalize_doi raw = some o)
    (h1 : containsSub (("doi:".toList)) o = false)
    (h2 : containsSub (("doi.org/".toList)) o = false) :
    normalize_doi (some o) = some o := by
  cases raw with
  | none => exact absurd h (by rw [show normalize_doi none = none from rfl]; simp)
  | some r =>
    by_cases hr : r = []
    · rw [hr] at h
      exact absurd h (by rw [show normalize_doi (some []) = none from rfl]; simp)
    · rw [normalize_doi_eval r hr] at h
      by_cases hco : normCore r = []
      · rw [if_pos hco] at h
        exact absurd h (by simp)
      · rw [if_neg hco] at h
        injection h with ho
        have hne : o ≠ [] := by
          rw [← ho]
          exact hco
        have hlow : pyLower o = o := by
          rw [← ho]
          simp only [normCore]
          rw [pyLower_pyLower]
        have hstrip : pyStrip o = o := by
          rw [← ho]
          simp only [normCore]
          rw [pyLower_pyStrip, pyStrip_idem]
        rw [normalize_doi_eval o hne]
        have hcore : normCore o = o := by
          simp only [normCore]
          rw [hstrip]
          by_cases hb : ciLead (("http".toList)) o = true
          · rw [if_pos hb]
            have hsub : subDoiUrl o = o := by
              unfold subDoiUrl
              exact subDoiUrlGo_id (by rw [hlow]; exact h2) o.length
            rw [hsub, replaceDoiLabel_id o.length o le_rfl (by rw [hlow]; exact h1),
              hstrip, hlow]
          · rw [if_neg hb,
              replaceDoiLabel_id o.length o le_rfl (by rw [hlow]; exact h1),
              hstrip, hlow]
        rw [hcore, if_neg hne]

/-- **C3 (counterexample).** `str.replace("doi:", "")` is case-sensitive, so the
upper-case labeled form `DOI:10.1/X` does not normalize to the same value as the
bare form `10.1/X`, and `normalize_doi` is not idempotent on it: a second pass
strips the now-lower-case `doi:` label. -/
theorem normalize_doi_case_counterexample :
    normalize_doi (some (("DOI:10.1/X".toList))) = some (("doi:10.1/x".toList))
    ∧ normalize_doi (some (("10.1/X".toList))) = some (("10.1/x".toList))
    ∧ normalize_doi (some (("DOI:10.1/X".toList)))
        ≠ normalize_doi (some (("10.1/X".toList)))
    ∧ normalize_doi (normalize_doi (some (("DOI:10.1/X".toList))))
        ≠ normalize_doi (some (("DOI:10.1/X".toList))) := by
  exact ⟨by decide, by decide, by decide, by decide⟩

/-- **C3 (amended).** The invariances that do hold for `normalize_doi`:
(1) a *lower-case* `doi:` label is stripped: prefixing `doi:` to any `d` whose
stripped form does not start with `http` (case-insensitively) does not change
the result; (2) prefixing any of the four `doi.org` URL forms to such a `d`
that does not itself contain `doi.org/` (case-insensitively) does not change
the result; (3) the result depends only on the letter-case-folded input,
provided the intermediate value after URL stripping contains no lower-case
`doi:` occurrence; (4) `normalize_doi` is idempotent on every output `o` that
contains neither `doi:` nor `doi.org/`. -/
theorem normalize_doi_invariance :
    (∀ d : List Char, ciLead (("http".toList)) (pyStrip d) = false →
      normalize_doi (some ((("doi:".toList)) ++ d)) = normalize_doi (some d))
    ∧ (∀ p ∈ [(("https://doi.org/".toList)), (("http://doi.org/".toList)),
        (("https://dx.doi.org/".toList)), (("http://dx.doi.org/".toList))],
        ∀ d : List Char, ciLead (("http".toList)) (pyStrip d) = false →
        containsSub (("doi.org/".toList)) (pyLower d) = false →
        normalize_doi (some (p ++ d)) = normalize_doi (some d))
    ∧ (∀ d e : List Char, pyLower e = pyLower d →
        containsSub (("doi:".toList))
          (pyLower (if ciLead (("http".toList)) (pyStrip d) = true
            then subDoiUrl (pyStrip d) else pyStrip d)) = false →
        normalize_doi (some e) = normalize_doi (some d))
    ∧ (∀ (raw : Option (List Char)) (o : List Char),
        normalize_doi raw = some o →
        containsSub (("doi:".toList)) o = false →
        containsSub (("doi.org/".toList)) o = false →
        normalize_doi (some o) = some o) := by
  refine ⟨?_, ?_, c3_case_insensitive, c3_idempotent⟩
  · intro d hb
    by_cases hd : d = []
    · rw [hd]
      decide
    · rw [normalize_doi_eval _ (append_ne_nil_left d (by decide)),
        normalize_doi_eval d hd, normCore_doiLabel d hb]
  · intro p hp d hb hnc
    by_cases hd : d = []
    · subst hd
      fin_cases hp <;> decide
    · fin_cases hp
      · exact c3_url_case1 d hd hb hnc
      · exact c3_url_case2 d hd hb hnc
      · exact c3_url_case3 d hd hb hnc
      · exact c3_url_case4 d hd hb hnc

/-- Witness for `normalize_doi_invariance` at concrete inputs. -/
theorem normalize_doi_invariance_witness :
    (normalize_doi (some (("doi:10.1/X".toList)))
      = normalize_doi (some (("10.1/X".toList))))
    ∧ (normalize_doi (some (("https://doi.org/10.1/X".toList)))
      = normalize_doi (some (("10.1/X".toList))))
    ∧ (normalize_doi (some (("10.1/x".toList)))
      = normalize_doi (some (("10.1/X".toList))))
    ∧ (normalize_doi (some (("10.1/x".toList))) = some (("10.1/x".toList))) :=
  ⟨normalize_doi_invariance.1 (("10.1/X".toList)) (by decide),
   normalize_doi_invariance.2.1 (("https://doi.org/".toList)) (by decide)
     (("10.1/X".toList)) (by decide) (by decide),
   normalize_doi_invariance.2.2.1 (("10.1/X".toList)) (("10.1/x".toList))
     (by decide) (by decide),
   normalize_doi_invariance.2.2.2 (some (("10.1/X".toList))) (("10.1/x".toList))
     (by decide) (by decide) (by decide)⟩

/-! ## Lemmas on `keepFirstBy` (`drop_duplicates(keep='first')`) -/

theorem kfgo_sublist {α β : Type} [DecidableEq β] (key : α → β) :
    ∀ (seen : List β) (l : List α), (keepFirstByGo key seen l).Sublist l := by
  intro seen l
  induction l generalizing seen with
  | nil => exact List.Sublist.refl []
  | cons x xs ih =>
    unfold keepFirstByGo
    split
    · exact (ih seen).trans (List.sublist_cons_self x xs)
    · exact (ih _).cons₂ x

theorem kfgo_mem {α β : Type} [DecidableEq β] {key : α → β} {seen : List β}
    {l : List α} {x : α} (h : x ∈ keepFirstByGo key seen l) : x ∈ l :=
  (kfgo_sublist key seen l).mem h

theorem kfgo_keys_nodup {α β : Type} [DecidableEq β] (key : α → β) :
    ∀ (seen : List β) (l : List α),
    ((keepFirstByGo key seen l).map key).Nodup
      ∧ ∀ b ∈ (keepFirstByGo key seen l).map key, b ∉ seen := by
  intro seen l
  induction l generalizing seen with
  | nil =>
    refine ⟨List.nodup_nil, ?_⟩
    intro b hb
    rw [show keepFirstByGo key seen [] = [] from rfl, List.map_nil] at hb
    exact absurd hb (by simp)
  | cons x xs ih =>
    unfold keepFirstByGo
    split
    · exact ih seen
    · rename_i hnotin
      obtain ⟨hnd, hdisj⟩ := ih (key x :: seen)
      refine ⟨?_, ?_⟩
      · rw [List.map_cons]
        exact List.nodup_cons.mpr
          ⟨fun hmem => hdisj _ hmem (List.mem_cons_self _ _), hnd⟩
      · intro b hb
        rw [List.map_cons, List.mem_cons] at hb
        rcases hb with rfl | hb
        · exact hnotin
        · intro hbseen
          exact hdisj b hb (List.mem_cons_of_mem _ hbseen)

theorem kfgo_covers {α β : Type} [DecidableEq β] (key : α → β) :
    ∀ (seen : List β) (l : List α), ∀ x ∈ l,
    key x ∈ seen ∨ key x ∈ (keepFirstByGo key seen l).map key := by
  intro seen l
  induction l generalizing seen with
  | nil => intro x hx; exact absurd hx (by simp)
  | cons y ys ih =>
    intro x hx
    rw [List.mem_cons] at hx
    unfold keepFirstByGo
    split
    · rename_i hin
      rcases hx with rfl | hx
      · exact Or.inl hin
      · exact ih seen x hx
    · rcases hx with rfl | hx
      · right
        rw [List.map_cons]
        exact List.mem_cons_self _ _
      · rcases ih (key y :: seen) x hx with hs | hm
        · rw [List.mem_cons] at hs
          rcases hs with heq | hs
          · right
            rw [List.map_cons, heq]
            exact List.mem_cons_self _ _
          · exact Or.inl hs
        · right
          rw [List.map_cons]
          exact List.mem_cons_of_mem _ hm

theorem kfgo_find {α β : Type} [DecidableEq β] (key : α → β) :
    ∀ (seen : List β) (l : List α) (b : β), b ∉ seen →
    (∃ x ∈ l, key x = b) →
    ∃ r, l.find? (fun y => decide (key y = b)) = some r
      ∧ r ∈ keepFirstByGo key seen l := by
  intro seen l
  induction l generalizing seen with
  | nil =>
    intro b _ hex
    obtain ⟨x, hx, _⟩ := hex
    exact absurd hx (by simp)
  | cons x xs ih =>
    intro b hb hex
    by_cases hx : key x = b
    · refine ⟨x, ?_, ?_⟩
      · rw [List.find?_cons_of_pos]
        simp [hx]
      · unfold keepFirstByGo
        rw [if_neg (by rw [hx]; exact hb)]
        exact List.mem_cons_self _ _
    · have hfind : (x :: xs).find? (fun y => decide (key y = b))
          = xs.find? (fun y => decide (key y = b)) :=
        List.find?_cons_of_neg _ (by simp [hx])
      have hex' : ∃ y ∈ xs, key y = b := by
        obtain ⟨z, hz, hzb⟩ := hex
        rw [List.mem_cons] at hz
        rcases hz with rfl | hz
        · exact absurd hzb hx
        · exact ⟨z, hz, hzb⟩
      unfold keepFirstByGo
      split
      · obtain ⟨r, hr1, hr2⟩ := ih seen b hb hex'
        exact ⟨r, hfind.trans hr1, hr2⟩
      · obtain ⟨r, hr1, hr2⟩ := ih (key x :: seen) b
          (by
            rw [List.mem_cons]
            rintro (heq | hs)
            · exact hx heq.symm
            · exact hb hs) hex'
        exact ⟨r, hfind.trans hr1, List.mem_cons_of_mem _ hr2⟩

theorem find?_filter_imp {α : Type} (p q : α → Bool)
    (himp : ∀ a, p a = true → q a = true) :
    ∀ l : List α, (l.filter q).find? p = l.find? p := by
  intro l
  induction l with
  | nil => rfl
  | cons a l ih =>
    by_cases hq : q a = true
    · rw [List.filter_cons_of_pos hq]
      by_cases hp : p a = true
      · rw [List.find?_cons_of_pos _ hp, List.find?_cons_of_pos _ hp]
      · rw [List.find?_cons_of_neg _ (by simp [hp]),
          List.find?_cons_of_neg _ (by simp [hp]), ih]
    · have hp : ¬p a = true := fun hpa => hq (himp a hpa)
      rw [List.filter_cons_of_neg (by simp [hq]),
        List.find?_cons_of_neg _ (by simp [hp]), ih]

theorem dedupGroup_eq (g : List Row) : dedupGroup g =
    keepFirstBy doiNorm (g.filter (fun r => doiNorm r ≠ []))
    ++ (if g.filter (fun r => doiNorm r = []) = []
        then g.filter (fun r => doiNorm r = [])
        else keepFirstBy titleNorm (g.filter (fun r => doiNorm r = []))) := rfl

theorem dedupGroup_subset (g : List Row) : ∀ r ∈ dedupGroup g, r ∈ g := by
  intro r hr
  rw [dedupGroup_eq, List.mem_append] at hr
  rcases hr with h | h
  · exact List.mem_of_mem_filter (kfgo_mem h)
  · split at h
    · exact List.mem_of_mem_filter h
    · exact List.mem_of_mem_filter (kfgo_mem h)

theorem dedupGroup_filter_withDoi (g : List Row) :
    (dedupGroup g).filter (fun r => doiNorm r ≠ [])
      = keepFirstBy doiNorm (g.filter (fun r => doiNorm r ≠ [])) := by
  rw [dedupGroup_eq, List.filter_append]
  have h1 : (keepFirstBy doiNorm (g.filter (fun r => doiNorm r ≠ []))).filter
      (fun r => doiNorm r ≠ [])
      = keepFirstBy doiNorm (g.filter (fun r => doiNorm r ≠ [])) := by
    rw [List.filter_eq_self]
    intro a ha
    exact (List.mem_filter.mp (kfgo_mem ha)).2
  have h2 : (if g.filter (fun r => doiNorm r = []) = []
      then g.filter (fun r => doiNorm r = [])
      else keepFirstBy titleNorm (g.filter (fun r => doiNorm r = []))).filter
      (fun r => doiNorm r ≠ []) = [] := by
    rw [List.filter_eq_nil_iff]
    intro a ha
    have hmem : a ∈ g.filter (fun r => doiNorm r = []) := by
      split at ha
      · exact ha
      · exact kfgo_mem ha
    have := (List.mem_filter.mp hmem).2
    simp only [decide_eq_true_eq] at this
    simp [this]
  rw [h1, h2, List.append_nil]

theorem dedupGroup_filter_withoutDoi (g : List Row) :
    (dedupGroup g).filter (fun r => doiNorm r = [])
      = (if g.filter (fun r => doiNorm r = []) = [] then []
         else keepFirstBy titleNorm (g.filter (fun r => doiNorm r = []))) := by
  rw [dedupGroup_eq, List.filter_append]
  have h1 : (keepFirstBy doiNorm (g.filter (fun r => doiNorm r ≠ []))).filter
      (fun r => doiNorm r = []) = [] := by
    rw [List.filter_eq_nil_iff]
    intro a ha
    have := (List.mem_filter.mp (kfgo_mem ha)).2
    simp only [decide_eq_true_eq] at this
    simp [this]
  rw [h1, List.nil_append]
  split
  · rename_i h0
    rw [h0]
    rfl
  · rw [List.filter_eq_self]
    intro a ha
    exact (List.mem_filter.mp (kfgo_mem ha)).2

theorem dedupGroup_doi_nodup (g : List Row) :
    (((dedupGroup g).filter (fun r => doiNorm r ≠ [])).map doiNorm).Nodup := by
  rw [dedupGroup_filter_withDoi]
  exact (kfgo_keys_nodup doiNorm [] _).1

theorem dedupGroup_title_nodup (g : List Row) :
    (((dedupGroup g).filter (fun r => doiNorm r = [])).map titleNorm).Nodup := by
  rw [dedupGroup_filter_withoutDoi]
  split
  · exact List.nodup_nil
  · exact (kfgo_keys_nodup titleNorm [] _).1

theorem dedupGroup_doi_find (g : List Row) :
    ∀ r ∈ g, doiNorm r ≠ [] → ∃ r',
    g.find? (fun x => decide (doiNorm x = doiNorm r)) = some r'
    ∧ r' ∈ dedupGroup g
    ∧ ∀ r'' ∈ dedupGroup g, doiNorm r'' = doiNorm r → r'' = r' := by
  intro r hr hdoi
  obtain ⟨r', h1, h2⟩ := kfgo_find doiNorm []
    (g.filter (fun x => doiNorm x ≠ [])) (doiNorm r) (by simp)
    ⟨r, List.mem_filter.mpr ⟨hr, by simp [hdoi]⟩, rfl⟩
  have hconv : (g.filter (fun x => doiNorm x ≠ [])).find?
      (fun x => decide (doiNorm x = doiNorm r))
      = g.find? (fun x => decide (doiNorm x = doiNorm r)) :=
    find?_filter_imp _ _ (fun a ha => by
      have := of_decide_eq_true ha
      simp [this, hdoi]) g
  have hk' : doiNorm r' = doiNorm r := by
    have hp := List.find?_some h1
    simp only [decide_eq_true_eq] at hp
    exact hp
  refine ⟨r', hconv ▸ h1, ?_, ?_⟩
  · rw [dedupGroup_eq]
    exact List.mem_append_left _ h2
  · intro r'' hr'' hkey
    have hr''f : r'' ∈ (dedupGroup g).filter (fun x => doiNorm x ≠ []) :=
      List.mem_filter.mpr ⟨hr'', by
        simp only [decide_eq_true_eq]
        rw [hkey]
        exact hdoi⟩
    rw [dedupGroup_filter_withDoi] at hr''f
    exact List.inj_on_of_nodup_map (kfgo_keys_nodup doiNorm [] _).1
      hr''f h2 (by rw [hkey, hk'])

theorem dedupGroup_title_find (g : List Row) :
    ∀ r ∈ g, doiNorm r = [] → ∃ r',
    (g.filter (fun x => doiNorm x = [])).find?
      (fun x => decide (titleNorm x = titleNorm r)) = some r'
    ∧ r' ∈ dedupGroup g
    ∧ ∀ r'' ∈ dedupGroup g, doiNorm r'' = [] →
        titleNorm r'' = titleNorm r → r'' = r' := by
  intro r hr hdoi
  have hrf : r ∈ g.filter (fun x => doiNorm x = []) :=
    List.mem_filter.mpr ⟨hr, by simp [hdoi]⟩
  have hne : g.filter (fun x => doiNorm x = []) ≠ [] := by
    intro h0
    rw [h0] at hrf
    exact absurd hrf (by simp)
  obtain ⟨r', h1, h2⟩ := kfgo_find titleNorm []
    (g.filter (fun x => doiNorm x = [])) (titleNorm r) (by simp)
    ⟨r, hrf, rfl⟩
  have hk' : titleNorm r' = titleNorm r := by
    have hp := List.find?_some h1
    simp only [decide_eq_true_eq] at hp
    exact hp
  refine ⟨r', h1, ?_, ?_⟩
  · rw [dedupGroup_eq]
    refine List.mem_append_right _ ?_
    rw [if_neg hne]
    exact h2
  · intro r'' hr'' hd'' ht''
    have hr''f : r'' ∈ (dedupGroup g).filter (fun x => doiNorm x = []) :=
      List.mem_filter.mpr ⟨hr'', by simp [hd'']⟩
    rw [dedupGroup_filter_withoutDoi, if_neg hne] at hr''f
    exact List.inj_on_of_nodup_map (kfgo_keys_nodup titleNorm [] _).1
      hr''f h2 (by rw [ht'', hk'])

theorem groupKeys_nodup (df : List Row) : (groupKeys df).Nodup := by
  have h := (kfgo_keys_nodup (id : (List Char × Int) → (List Char × Int)) []
    (df.filterMap (fun r => r.year.map (fun y => (r.journal_key, y))))).1
  rw [List.map_id] at h
  unfold groupKeys
  exact ((List.perm_insertionSort _ _).nodup_iff).mpr h

theorem groupKeys_mem_of (df : List Row) (r : Row) (hr : r ∈ df) (y : Int)
    (hy : r.year = some y) : (r.journal_key, y) ∈ groupKeys df := by
  unfold groupKeys
  rw [(List.perm_insertionSort _ _).mem_iff]
  have hfm : (r.journal_key, y)
      ∈ df.filterMap (fun r => r.year.map (fun y => (r.journal_key, y))) :=
    List.mem_filterMap.mpr ⟨r, hr, by rw [hy]; rfl⟩
  rcases kfgo_covers id [] _ _ hfm with h | h
  · exact absurd h (by simp)
  · rw [List.map_id] at h
    simp only [id_eq] at h
    exact h

theorem groupKeys_empty_group (df : List Row) (k : List Char) (y : Int)
    (hm : (k, y) ∉ groupKeys df) : df.filter (inGroup k y) = [] := by
  rw [List.filter_eq_nil_iff]
  intro r hr hgr
  unfold inGroup at hgr
  simp only [Bool.and_eq_true, decide_eq_true_eq] at hgr
  exact hm (hgr.1 ▸ groupKeys_mem_of df r hr y hgr.2)

theorem inGroup_keys_eq {k k' : List Char} {y y' : Int} {r : Row}
    (h1 : inGroup k y r = true) (h2 : inGroup k' y' r = true) :
    k = k' ∧ y = y' := by
  unfold inGroup at h1 h2
  simp only [Bool.and_eq_true, decide_eq_true_eq] at h1 h2
  exact ⟨h1.1.symm.trans h2.1, Option.some.inj (h1.2.symm.trans h2.2)⟩

theorem deduplicate_eq (df : List Row) : deduplicate df =
    if groupKeys df = [] then df
    else ((groupKeys df).map
      (fun κ => dedupGroup (df.filter (inGroup κ.1 κ.2)))).flatten := rfl

theorem dd_filter_flatten (df : List Row) (k : List Char) (y : Int) :
    ∀ ks : List (List Char × Int), ks.Nodup →
    ((ks.map (fun κ => dedupGroup (df.filter (inGroup κ.1 κ.2)))).flatten).filter
        (inGroup k y)
      = if (k, y) ∈ ks then dedupGroup (df.filter (inGroup k y)) else [] := by
  intro ks
  induction ks with
  | nil => intro _; simp
  | cons κ ks ih =>
    intro hnd
    obtain ⟨κ1, κ2⟩ := κ
    rw [List.map_cons, List.flatten_cons, List.filter_append,
      ih (List.nodup_cons.mp hnd).2]
    dsimp only
    by_cases hκ : (κ1, κ2) = (k, y)
    · obtain ⟨hk, hy⟩ := Prod.mk.injEq .. ▸ hκ
      subst hk
      subst hy
      have hhead : (dedupGroup (df.filter (inGroup κ1 κ2))).filter (inGroup κ1 κ2)
          = dedupGroup (df.filter (inGroup κ1 κ2)) := by
        rw [List.filter_eq_self]
        intro a ha
        exact (List.mem_filter.mp (dedupGroup_subset _ _ ha)).2
      have hnotin : (κ1, κ2) ∉ ks := (List.nodup_cons.mp hnd).1
      rw [hhead, if_neg hnotin, List.append_nil,
        if_pos (List.mem_cons_self _ _)]
    · have hhead : (dedupGroup (df.filter (inGroup κ1 κ2))).filter (inGroup k y)
          = [] := by
        rw [List.filter_eq_nil_iff]
        intro a ha hgr
        have hgκ := (List.mem_filter.mp (dedupGroup_subset _ _ ha)).2
        obtain ⟨hk, hy⟩ := inGroup_keys_eq hgκ hgr
        exact hκ (by rw [hk, hy])
      rw [hhead, List.nil_append]
      by_cases hm : (k, y) ∈ ks
      · rw [if_pos hm, if_pos (List.mem_cons_of_mem _ hm)]
      · rw [if_neg hm, if_neg (by
          rw [List.mem_cons]
          rintro (heq | h)
          · exact hκ heq.symm
          · exact hm h)]

theorem deduplicate_subset (df : List Row) : ∀ r ∈ deduplicate df, r ∈ df := by
  intro r hr
  rw [deduplicate_eq] at hr
  split at hr
  · exact hr
  · rw [List.mem_flatten] at hr
    obtain ⟨l, hl, hrl⟩ := hr
    rw [List.mem_map] at hl
    obtain ⟨κ, _, rfl⟩ := hl
    exact List.mem_of_mem_filter (dedupGroup_subset _ _ hrl)

theorem deduplicate_filter_group (df : List Row) (hne : groupKeys df ≠ [])
    (k : List Char) (y : Int) :
    (deduplicate df).filter (inGroup k y)
      = dedupGroup (df.filter (inGroup k y)) := by
  rw [deduplicate_eq, if_neg hne, dd_filter_flatten df k y _ (groupKeys_nodup df)]
  by_cases hm : (k, y) ∈ groupKeys df
  · rw [if_pos hm]
  · rw [if_neg hm, groupKeys_empty_group df k y hm]
    rfl

/-- **C1.** `_deduplicate` is scoped to `(journal_key, year)` groups and
partitions each group by DOI presence: (1) every output row is an input row;
(2) when there is at least one group, the output rows of each
`(journal_key, year)` group are exactly the group-local dedup of that group's
input rows — groups never interact; (3) within a group: output rows carrying a
DOI have pairwise-distinct `doi_norm` keys and DOI-less output rows have
pairwise-distinct `title_norm` keys; every input row with a non-empty
`doi_norm` is represented by the *first* row of the group with its key (the
unique surviving row with that `doi_norm`), and every DOI-less input row is
represented by the first *DOI-less* row of the group with its `title_norm`
(the unique surviving DOI-less row with that title key) — so a DOI row and a
DOI-less row are never collapsed together. -/
theorem deduplicate_group_scoped (df : List Row) :
    (∀ r ∈ deduplicate df, r ∈ df)
    ∧ (groupKeys df ≠ [] → ∀ (k : List Char) (y : Int),
        (deduplicate df).filter (inGroup k y)
          = dedupGroup (df.filter (inGroup k y)))
    ∧ (∀ g : List Row,
        (∀ r ∈ dedupGroup g, r ∈ g)
        ∧ (((dedupGroup g).filter (fun r => doiNorm r ≠ [])).map doiNorm).Nodup
        ∧ (((dedupGroup g).filter (fun r => doiNorm r = [])).map titleNorm).Nodup
        ∧ (∀ r ∈ g, doiNorm r ≠ [] → ∃ r',
            g.find? (fun x => decide (doiNorm x = doiNorm r)) = some r'
            ∧ r' ∈ dedupGroup g
            ∧ ∀ r'' ∈ dedupGroup g, doiNorm r'' = doiNorm r → r'' = r')
        ∧ (∀ r ∈ g, doiNorm r = [] → ∃ r',
            (g.filter (fun x => doiNorm x = [])).find?
              (fun x => decide (titleNorm x = titleNorm r)) = some r'
            ∧ r' ∈ dedupGroup g
            ∧ ∀ r'' ∈ dedupGroup g, doiNorm r'' = [] →
                titleNorm r'' = titleNorm r → r'' = r')) :=
  ⟨deduplicate_subset df, fun hne => deduplicate_filter_group df hne,
   fun g => ⟨dedupGroup_subset g, dedupGroup_doi_nodup g, dedupGroup_title_nodup g,
     dedupGroup_doi_find g, dedupGroup_title_find g⟩⟩

/-- Witness for `deduplicate_group_scoped` at a concrete frame. -/
theorem deduplicate_group_scoped_witness :
    ((⟨("aer".toList), some 2020, some ("10.1/a".toList), some ("T".toList)⟩ : Row)
      ∈ c1Df)
    ∧ ((deduplicate c1Df).filter (inGroup ("aer".toList) 2020)
        = dedupGroup (c1Df.filter (inGroup ("aer".toList) 2020)))
    ∧ (∃ r', c1Df.find? (fun x => decide (doiNorm x = doiNorm
          (⟨("aer".toList), some 2020, some ("10.1/A".toList),
            some ("U".toList)⟩ : Row))) = some r'
        ∧ r' ∈ dedupGroup c1Df
        ∧ ∀ r'' ∈ dedupGroup c1Df,
            doiNorm r'' = doiNorm (⟨("aer".toList), some 2020,
              some ("10.1/A".toList), some ("U".toList)⟩ : Row) → r'' = r')
    ∧ (∃ r', (c1Df.filter (fun x => doiNorm x = [])).find?
          (fun x => decide (titleNorm x = titleNorm
            (⟨("aer".toList), some 2020, none, some ("T".toList)⟩ : Row)))
          = some r'
        ∧ r' ∈ dedupGroup c1Df
        ∧ ∀ r'' ∈ dedupGroup c1Df, doiNorm r'' = [] →
            titleNorm r'' = titleNorm (⟨("aer".toList), some 2020, none,
              some ("T".toList)⟩ : Row) → r'' = r') :=
  ⟨(deduplicate_group_scoped c1Df).1 _ (by decide),
   (deduplicate_group_scoped c1Df).2.1 (by decide) (("aer".toList)) 2020,
   ((deduplicate_group_scoped c1Df).2.2 c1Df).2.2.2.1 _ (by decide) (by decide),
   ((deduplicate_group_scoped c1Df).2.2 c1Df).2.2.2.2 _ (by decide) (by decide)⟩

/-- **C4 (counterexample).** The pipeline's title dedup key is
`title.fillna('').str.lower()` — lower-casing only, with no whitespace
collapsing — so `"A Paper"` and `"A Paper "` get different keys and both
DOI-less rows of the spec's end-to-end scenario survive: assembly yields 3
rows, not 2. -/
theorem dedup_title_whitespace_counterexample :
    titleNorm (⟨("aer".toList), some 2020, none, some ("A Paper ".toList)⟩ : Row)
      ≠ titleNorm (⟨("aer".toList), some 2020, none, some ("A Paper".toList)⟩ : Row)
    ∧ (deduplicate scenarioRows).length = 3 := ⟨by decide, by decide⟩

/-- **C4 (amended).** The title key for DOI-less rows is the *case-folded*
title only (no whitespace collapsing): two DOI-less rows of one group whose
titles agree after lower-casing cannot both survive; titles differing only in
letter case do collapse to the first occurrence; and the spec's end-to-end
scenario yields the 3 rows in which the mixed-case DOI pair collapsed but the
trailing-space title variant did not. -/
theorem dedup_title_key_casefold_only :
    (∀ g : List Row, ∀ r1 ∈ g, ∀ r2 ∈ g, doiNorm r1 = [] → doiNorm r2 = [] →
      pyLower (r1.title.getD []) = pyLower (r2.title.getD []) →
      r1 ∈ dedupGroup g → r2 ∈ dedupGroup g → r1 = r2)
    ∧ dedupGroup
        [ ⟨("aer".toList), some 2020, none, some ("A Paper".toList)⟩,
          ⟨("aer".toList), some 2020, none, some ("a PAPER".toList)⟩ ]
        = [ ⟨("aer".toList), some 2020, none, some ("A Paper".toList)⟩ ]
    ∧ deduplicate scenarioRows
        = [ ⟨("aer".toList), some 2020, some ("10.1/x".toList),
              some ("Paper One".toList)⟩,
            ⟨("aer".toList), some 2020, none, some ("A Paper".toList)⟩,
            ⟨("aer".toList), some 2020, none, some ("A Paper ".toList)⟩ ] := by
  refine ⟨?_, by decide, by decide⟩
  intro g r1 h1 r2 h2 hd1 hd2 ht hg1 hg2
  have ht' : titleNorm r1 = titleNorm r2 := ht
  have hf1 : r1 ∈ (dedupGroup g).filter (fun r => doiNorm r = []) :=
    List.mem_filter.mpr ⟨hg1, by simp [hd1]⟩
  have hf2 : r2 ∈ (dedupGroup g).filter (fun r => doiNorm r = []) :=
    List.mem_filter.mpr ⟨hg2, by simp [hd2]⟩
  exact List.inj_on_of_nodup_map (dedupGroup_title_nodup g) hf1 hf2 ht'

/-- Witness for `dedup_title_key_casefold_only` at concrete rows. -/
theorem dedup_title_key_casefold_only_witness :
    (⟨("aer".toList), some 2020, none, some ("A Paper".toList)⟩ : Row)
      = ⟨("aer".toList), some 2020, none, some ("A Paper".toList)⟩ :=
  dedup_title_key_casefold_only.1
    [ ⟨("aer".toList), some 2020, none, some ("A Paper".toList)⟩,
      ⟨("aer".toList), some 2020, none, some ("a PAPER".toList)⟩ ]
    _ (by decide) _ (by decide) (by decide) (by decide) (by decide)
    (by decide) (by decide)

end Pipeline
